import Mathlib


/-!
Verification development for the JotDown markdown engine.

Each section shallowly embeds one part of the Rust source
(src/markdown-it/src/...) as executable Lean definitions and proves the
specification claims about it.  Machine integers (usize) are modelled as
Nat with explicit wrap-around where Rust overflow semantics matter.
-/

/-! ## Render-fragment cache (src/markdown-it/src/parser/cache.rs) -/

/-- One bit width of Rust usize on the target platform (64 bit). -/
def USIZE : Nat := 2 ^ 64

/-- Wrapping decrement of a usize, the release-build semantics of the
Rust expression v.1 -= 1 (debug builds panic on underflow instead). -/
def usizeDecr (n : Nat) : Nat := (n + (USIZE - 1)) % USIZE

/-- The render cache of cache.rs: a map from combined key to
(rendered string, liveness counter), plus the live_length field.  The
HashMap is modelled as an association list; only key lookup and
pointwise update/retention are relied upon, which agree with HashMap
semantics. -/
structure Cache where
  entries : List (String × String × Nat)
  liveLength : Nat

/-- Cache::new (also the Default instance): empty map, live_length 0. -/
def Cache.new : Cache := ⟨[], 0⟩

/-- HashMap lookup by key over the association-list model. -/
def lookupEntry (target : String) : List (String × String × Nat) → Option (String × Nat)
  | [] => none
  | (ek, s, l) :: rest => if ek = target then some (s, l) else lookupEntry target rest

/-- The and_modify branch of Cache::get_or_insert: increment the liveness
counter of the entry stored under the given key, leave everything else
unchanged. -/
def bumpEntry (target : String) : List (String × String × Nat) → List (String × String × Nat)
  | [] => []
  | (ek, s, l) :: rest =>
    if ek = target then (ek, s, l + 1) :: rest else (ek, s, l) :: bumpEntry target rest

/-- Result of one Cache::get_or_insert call: the returned string, the
cache afterwards, and whether render_function was invoked (an observable
effect of the call, recorded for the specification). -/
structure GoiOut where
  result : String
  cache : Cache
  invoked : Bool

/-- Cache::get_or_insert: entry(format plugin_name _ key), and_modify
increments the liveness counter, or_insert_with stores
(render_function(key), live_length); returns the stored string. -/
def Cache.getOrInsert (c : Cache) (pluginName key : String)
    (renderFunction : String → String) : GoiOut :=
  let k := pluginName ++ "_" ++ key
  match lookupEntry k c.entries with
  | some (s, _) => ⟨s, ⟨bumpEntry k c.entries, c.liveLength⟩, false⟩
  | none =>
    ⟨renderFunction key, ⟨c.entries ++ [(k, renderFunction key, c.liveLength)], c.liveLength⟩, true⟩

/-- Cache::clean: retain mutates each counter with v.1 -= 1 and keeps the
entry when the result is positive. -/
def Cache.clean (c : Cache) : Cache :=
  ⟨c.entries.filterMap (fun e =>
      let l := usizeDecr e.2.2
      if l > 0 then some (e.1, e.2.1, l) else none),
    c.liveLength⟩

/-! ## Tag filter (src/markdown-it/src/plugins/gfm/tag_filter.rs)

The regex <(?i)(iframe|noembed|noframes|plaintext|script|title|textarea|xmp)
with replacement &lt;$1 is embedded at character-list level: a
left-to-right, non-overlapping scan replacing each occurrence of a
less-than sign directly followed by a denylisted tag name (matched
case-insensitively) by the escape sequence followed by the original tag
text.  Case-insensitivity is the regex crate's simple case folding, which
over the denylist alphabet is ASCII folding plus the two non-ASCII
foldings to letters of that alphabet (long s to s, Kelvin sign to k). -/

/-- Simple case folding restricted to what can fold into the denylist
alphabet: ASCII upper to lower, long s to s, Kelvin sign to k. -/
def foldCase (c : Char) : Char :=
  if 'A' ≤ c && c ≤ 'Z' then Char.ofNat (c.toNat + 32)
  else if c = 'ſ' then 's'
  else if c = 'K' then 'k'
  else c

/-- The denylisted tag names, in the regex alternation order. -/
def denyTags : List (List Char) :=
  [['i','f','r','a','m','e'],
   ['n','o','e','m','b','e','d'],
   ['n','o','f','r','a','m','e','s'],
   ['p','l','a','i','n','t','e','x','t'],
   ['s','c','r','i','p','t'],
   ['t','i','t','l','e'],
   ['t','e','x','t','a','r','e','a'],
   ['x','m','p']]

/-- Case-insensitive match of a (lowercase) tag name against the front of
a character list. -/
def ciMatches : List Char → List Char → Bool
  | [], _ => true
  | _ :: _, [] => false
  | t :: ts, c :: cs => foldCase c == t && ciMatches ts cs

/-- The first denylisted tag name matching at the front of the list, in
alternation order (no tag is a prefix of another, so this is the unique
match when one exists). -/
def firstTag (cs : List Char) : Option (List Char) :=
  denyTags.find? (fun t => ciMatches t cs)

/-- regex.replace_all of TagFilter::run on the character list of a
content string. -/
def tagFilterChars : List Char → List Char
  | [] => []
  | c :: rest =>
    if c = '<' then
      match firstTag rest with
      | some t =>
        '&' :: 'l' :: 't' :: ';' :: (rest.take t.length ++ tagFilterChars (rest.drop t.length))
      | none => '<' :: tagFilterChars rest
    else c :: tagFilterChars rest
termination_by cs => cs.length
decreasing_by
  all_goals simp only [List.length_cons, List.length_drop]
  all_goals omega

/-- Does the character list contain a less-than sign immediately followed
by a denylisted tag name (in any letter case)?  This is the sequence the
claim says must not remain after filtering. -/
def hasBadTagAt : List Char → Bool
  | [] => false
  | c :: rest => ((c == '<') && (firstTag rest).isSome) || hasBadTagAt rest

/-- Lowercase ASCII letter test. -/
def isLowerAZ (c : Char) : Bool := 'a' ≤ c && c ≤ 'z'

/-! ## Syntax tree model

The polymorphic Node of the engine, restricted to the payload kinds the
verified rules inspect; otherNode stands for every further plugin payload
(the rules only ever test payloads by type identity, so one opaque tag
suffices for all remaining kinds). -/

/-- Modelled from the spec: the Footnote Map extension value (its module
src/markdown-it/src/plugins/pandoc/footnote/mod.rs is not among the
provided sources; only its operations add_def and referenced_by are used
by the rules).  defs assigns each distinct label its stable id in
first-sight order; refs records, per definition id, the ordered list of
reference occurrence ids. -/
structure FootnoteMap where
  defs : List (String × Nat)
  refs : List (Nat × List Nat)
deriving DecidableEq

/-- Modelled from the spec: FootnoteMap::referenced_by, the ordered list
of reference occurrences recorded for a definition id (empty when none
were recorded). -/
def FootnoteMap.referencedBy (m : FootnoteMap) (defId : Nat) : List Nat :=
  match m.refs.find? (fun p => p.1 == defId) with
  | some p => p.2
  | none => []

/-- The Root node's typed Extension Store, abstracted to the slots the
footnote rules touch: the optional FootnoteMap slot plus an opaque
remainder standing for every other typed slot.  std::mem::take leaves
the default (empty) store behind. -/
structure RootExt where
  fmap : Option FootnoteMap
  rest : List (Nat × Nat)
deriving DecidableEq

/-- The empty Extension Store (Default::default, what mem::take leaves). -/
def RootExt.empty : RootExt := ⟨none, []⟩

/-- Node payloads (NodeValue implementors) inspected by the verified
rules. -/
inductive NV where
  | root (ext : RootExt)
  | paragraph
  | footnoteDef (label : Option String) (defId : Option Nat) (isInline : Bool)
  | footnotesContainer
  | placeholderNode
  | footnoteRefAnchor (refIds : List Nat)
  | atxHeading (level : Nat)
  | setextHeader (level : Nat)
  | htmlBlock (content : String)
  | htmlInline (content : String)
  | headingAnchor (href : String) (anchorId : Option String)
  | textNode (content : String)
  | otherNode (tag : Nat)

/-- A syntax-tree node: payload, render attributes, exclusively owned
children. -/
inductive Node where
  | mk (value : NV) (attrs : List (String × String)) (children : List Node)

/-- Payload of a node. -/
def Node.value : Node → NV
  | .mk v _ _ => v

/-- Attributes of a node. -/
def Node.attrs : Node → List (String × String)
  | .mk _ a _ => a

/-- Children of a node. -/
def Node.children : Node → List Node
  | .mk _ _ cs => cs

/-- Pre-order descent: the node reached by following the given child
indices from the root. -/
def getAt : Node → List Nat → Option Node
  | n, [] => some n
  | n, i :: p =>
    match n.children.get? i with
    | some c => getAt c p
    | none => none

/-! ## TagFilter::run over the tree (src/markdown-it/src/plugins/gfm/tag_filter.rs) -/

/-- The body of the walk_mut closure of TagFilter::run: replace the
content of an HtmlBlock or HtmlInline payload by its filtered form, leave
every other payload unchanged. -/
def tagFilterValue (v : NV) : NV :=
  match v with
  | .htmlBlock content => .htmlBlock (String.mk (tagFilterChars content.toList))
  | .htmlInline content => .htmlInline (String.mk (tagFilterChars content.toList))
  | v2 => v2

mutual

/-- TagFilter::run: pre-order walk_mut applying tagFilterValue to every
node (the closure touches only the payload, so visit order is
irrelevant). -/
def tagFilterRun : Node → Node
  | .mk v a cs => .mk (tagFilterValue v) a (tagFilterList cs)

/-- The walk of TagFilter::run over a child list. -/
def tagFilterList : List Node → List Node
  | [] => []
  | c :: cs => tagFilterRun c :: tagFilterList cs

end

/-- Specification-side check for one payload: an HtmlBlock or HtmlInline
content must not contain a less-than sign immediately followed by a
denylisted tag name in any letter case. -/
def contentClean (v : NV) : Bool :=
  match v with
  | .htmlBlock content => !(hasBadTagAt content.toList)
  | .htmlInline content => !(hasBadTagAt content.toList)
  | _ => true

mutual

/-- contentClean holds at every node of the tree. -/
def treeContentsClean : Node → Bool
  | .mk v _ cs => contentClean v && listContentsClean cs

/-- treeContentsClean over a child list. -/
def listContentsClean : List Node → Bool
  | [] => true
  | c :: cs => treeContentsClean c && listContentsClean cs

end

/-! ## Footnote collection (src/markdown-it/src/plugins/pandoc/footnote/collect.rs)

FootnoteCollectRule::run takes the Root extension store, walks the tree
extracting every FootnoteDefinition child (replacing it by a placeholder
and retaining the rest, i.e. removing it), drops unreferenced or id-less
definitions, wraps inline definitions' children in a paragraph, and
appends the survivors in one FootnotesContainerNode.  The walk visits a
node before its children, so the children of an extracted definition are
never visited.  The functions below follow that traversal: one level of
extraction per visited node, descent only into kept (non-definition)
children. -/

/-- is::&lt;FootnoteDefinition&gt; type-identity test. -/
def Node.isDef : Node → Bool
  | .mk (.footnoteDef _ _ _) _ _ => true
  | _ => false

/-- The loop body of FootnoteCollectRule::run for one extracted child:
empty when the definition is dropped (no id, or no recorded references),
otherwise the singleton holding the definition, its children wrapped in
an implicit Paragraph when the definition is inline.  Non-definition
children contribute nothing here (they are kept in the tree). -/
def survivorOf (m : FootnoteMap) : Node → List Node
  | .mk (.footnoteDef label defId isInline) a ccs =>
    match defId with
    | none => []
    | some i =>
      if (m.referencedBy i).isEmpty then []
      else if isInline then
        [.mk (.footnoteDef label defId isInline) a [.mk .paragraph [] ccs]]
      else [.mk (.footnoteDef label defId isInline) a ccs]
  | _ => []

/-- The definitions extracted from one node's child list by the visitor
(one level only, in sibling order). -/
def levelDefs (m : FootnoteMap) : List Node → List Node
  | [] => []
  | c :: cs => survivorOf m c ++ levelDefs m cs

mutual

/-- All definitions the walk collects from one visited node: its own
extracted definition children first, then (depth-first) those collected
below its kept children. -/
def nodeDefs (m : FootnoteMap) : Node → List Node
  | .mk _ _ cs => levelDefs m cs ++ listDeepDefs m cs

/-- Definitions collected below the kept (non-definition) members of a
child list; extracted definitions are not descended into. -/
def listDeepDefs (m : FootnoteMap) : List Node → List Node
  | [] => []
  | c :: cs => (if c.isDef then [] else nodeDefs m c) ++ listDeepDefs m cs

end

mutual

/-- The tree after the walk of FootnoteCollectRule::run: every
FootnoteDefinition child removed at every visited node. -/
def pruneNode : Node → Node
  | .mk v a cs => .mk v a (pruneList cs)

/-- pruneNode over a child list: definition children removed, the rest
pruned recursively. -/
def pruneList : List Node → List Node
  | [] => []
  | c :: cs => if c.isDef then pruneList cs else pruneNode c :: pruneList cs

end

/-- FootnoteCollectRule::run.  cast_mut::&lt;Root&gt;().unwrap() panics on a
non-Root payload (modelled as none).  The extension store is taken first;
on the early returns (no FootnoteMap, or no surviving definitions) it is
never put back, leaving the Root with the empty store. -/
def collectRun : Node → Option Node
  | .mk (.root ext) a cs =>
    match ext.fmap with
    | none => some (.mk (.root RootExt.empty) a cs)
    | some m =>
      let ds := levelDefs m cs ++ listDeepDefs m cs
      if ds.isEmpty then some (.mk (.root RootExt.empty) a (pruneList cs))
      else some (.mk (.root ext) a
        (pruneList cs ++ [.mk .footnotesContainer [] ds]))
  | _ => none

/-! ## Footnote back-references (src/markdown-it/src/plugins/pandoc/footnote/back_refs.rs) -/

/-- The FootnoteRefAnchor node pushed by FootnoteBackrefRule::run. -/
def anchorNode (rs : List Nat) : Node := .mk (.footnoteRefAnchor rs) [] []

/-- Paragraph type-identity test. -/
def Node.isPara : Node → Bool
  | .mk .paragraph _ _ => true
  | _ => false

/-- The reference list the rule computes for a definition payload:
referenced_by for a present id, empty for a missing id. -/
def refsOf (m : FootnoteMap) : Option Nat → List Nat
  | some i => m.referencedBy i
  | none => []

/-- Anchor placement at the last child (the last_mut inspection of
FootnoteBackrefRule::run): into the last child's children when it is a
Paragraph, else after it. -/
def appendAnchorLast (rs : List Nat) (c : Node) : List Node :=
  match c with
  | .mk .paragraph a pcs => [.mk .paragraph a (pcs ++ [anchorNode rs])]
  | c2 => [c2, anchorNode rs]

/-- Anchor placement of FootnoteBackrefRule::run: pushed into the last
child when that child is a Paragraph, otherwise pushed as a new last
child (also when there are no children). -/
def appendAnchorTo (rs : List Nat) : List Node → List Node
  | [] => [anchorNode rs]
  | [c] => appendAnchorLast rs c
  | c :: cs => c :: appendAnchorTo rs cs

mutual

/-- FootnoteBackrefRule::run on a subtree.  The Rust walk applies the
visitor to a node before descending; the visitor only ever appends an
anchor node (never a definition), and its paragraph test reads payloads
the descent does not change, so visiting children first is equivalent and
keeps the recursion structural. -/
def backrefRun (m : FootnoteMap) : Node → Node
  | .mk (.footnoteDef label defId isInline) a cs =>
    let rs := refsOf m defId
    if rs.isEmpty then .mk (.footnoteDef label defId isInline) a (backrefList m cs)
    else .mk (.footnoteDef label defId isInline) a (appendAnchorTo rs (backrefList m cs))
  | .mk v a cs => .mk v a (backrefList m cs)

/-- backrefRun over a child list. -/
def backrefList (m : FootnoteMap) : List Node → List Node
  | [] => []
  | c :: cs => backrefRun m c :: backrefList m cs

end

/-- FootnoteBackrefRule::run at the Root: take the extension store, walk,
put the store back — except on the early return when no FootnoteMap is
present, which drops the taken store. -/
def backrefFull : Node → Option Node
  | .mk (.root ext) a cs =>
    match ext.fmap with
    | none => some (.mk (.root RootExt.empty) a cs)
    | some m => some (.mk (.root ext) a (backrefList m cs))
  | _ => none

/-- A render instruction recorded by the Renderer interface. -/
inductive REv where
  | rtext (s : String)
  | ropen (tag : String) (attrs : List (String × String))
  | rclose (tag : String)

/-- FootnoteRefAnchor::render: for each recorded reference id, a space, an
anchor open tag with href fnref-id and class footnote-backref, the return
glyph, and the close tag. -/
def anchorRender (rs : List Nat) : List REv :=
  rs.flatMap (fun r =>
    [.rtext " ",
     .ropen "a" [("href", "#fnref" ++ toString r), ("class", "footnote-backref")],
     .rtext "↩︎",
     .rclose "a"])

/-- The href attributes of the anchor open tags in a render event list. -/
def hrefsOf : List REv → List String
  | [] => []
  | .ropen "a" attrs :: evs =>
    (match attrs.find? (fun p => p.1 == "href") with
     | some p => [p.2]
     | none => []) ++ hrefsOf evs
  | _ :: evs => hrefsOf evs

/-! ## Specification-side checkers for the footnote claims -/

/-- Does this node's payload mark a definition whose id has recorded
references (the survival condition of the collect rule)? -/
def defSurvives (m : FootnoteMap) : Node → Bool
  | .mk (.footnoteDef _ (some i) _) _ _ => !(m.referencedBy i).isEmpty
  | _ => false

mutual

/-- No FootnoteDefinition anywhere strictly below this node. -/
def childrenDefFree : Node → Bool
  | .mk _ _ cs => listDefFree cs

/-- No FootnoteDefinition in this list or below its members. -/
def listDefFree : List Node → Bool
  | [] => true
  | c :: cs => (!c.isDef && childrenDefFree c) && listDefFree cs

end

mutual

/-- No footnote definition nested inside another footnote definition in
this subtree. -/
def nodeNoNested : Node → Bool
  | .mk (.footnoteDef _ _ _) _ cs => listDefFree cs
  | .mk _ _ cs => listNoNested cs

/-- nodeNoNested over a list. -/
def listNoNested : List Node → Bool
  | [] => true
  | c :: cs => nodeNoNested c && listNoNested cs

end

/-- A single Paragraph child (the shape of an inline definition after
re-wrapping). -/
def isSinglePara : List Node → Bool
  | [.mk .paragraph _ _] => true
  | _ => false

mutual

/-- Output sanity of the collect rule at one node: every definition in
the subtree has a referenced id, and every inline definition holds
exactly one implicit Paragraph. -/
def defsOk (m : FootnoteMap) : Node → Bool
  | .mk (.footnoteDef _ defId isInline) _ cs =>
    ((match defId with
      | some i => !(m.referencedBy i).isEmpty
      | none => false)
      && (!isInline || isSinglePara cs))
      && defsOkList m cs
  | .mk _ _ cs => defsOkList m cs

/-- defsOk over a list. -/
def defsOkList (m : FootnoteMap) : List Node → Bool
  | [] => true
  | c :: cs => defsOk m c && defsOkList m cs

end

mutual

/-- Pre-order list of the labels of every FootnoteDefinition in the
subtree (used to compare document order with collection order). -/
def nodeDefLabels : Node → List (Option String)
  | .mk (.footnoteDef label _ _) _ cs => label :: listDefLabels cs
  | .mk _ _ cs => listDefLabels cs

/-- nodeDefLabels over a list. -/
def listDefLabels : List Node → List (Option String)
  | [] => []
  | c :: cs => nodeDefLabels c ++ listDefLabels cs

end

/-! ## Example documents for the collect rule -/

/-- Example map: labels a, b, c got ids 0, 1, 2; a and b are referenced
once each, c never. -/
def mex : FootnoteMap := ⟨[("a", 0), ("b", 1), ("c", 2)], [(0, [10]), (1, [11])]⟩

/-- An unreferenced definition (label c, id 2). -/
def defC : Node := .mk (.footnoteDef (some "c") (some 2) false) [] []

/-- A referenced definition (label a, id 0) with defC nested inside it. -/
def defA : Node := .mk (.footnoteDef (some "a") (some 0) false) [] [defC, .mk .paragraph [] []]

/-- A referenced definition (label b, id 1), sibling of the container of
defA but occurring after it in document order. -/
def defB : Node := .mk (.footnoteDef (some "b") (some 1) false) [] [.mk .paragraph [] []]

/-- Example document: the root holds a block container with defA inside
it, followed by the top-level defB. -/
def exRoot : Node := .mk (.root ⟨some mex, []⟩) [] [.mk (.otherNode 0) [] [defA], defB]

/-- What the collect rule produces on exRoot: defB collected before defA
(root-level definitions are extracted when the root is visited, before
the walk descends), and the unreferenced defC still nested inside defA. -/
def exOut : Node := .mk (.root ⟨some mex, []⟩) []
  [.mk (.otherNode 0) [] [], .mk .footnotesContainer [] [defB, defA]]

/-- Witness map for the collect rule: one label a with id 0, referenced
once. -/
def wm : FootnoteMap := ⟨[("a", 0)], [(0, [1])]⟩

/-- Witness document child list: a single referenced definition. -/
def wdef : Node :=
  .mk (.footnoteDef (some "a") (some 0) false) [] [.mk .paragraph [] [.mk (.textNode "hi") [] []]]

/-- The children assembled by the back-reference visitor for a node with
the given payload and (already recursively processed) child list. -/
def backrefKids (m : FootnoteMap) (v : NV) (cs : List Node) : List Node :=
  match v with
  | .footnoteDef _ defId _ =>
    if (refsOf m defId).isEmpty then backrefList m cs
    else appendAnchorTo (refsOf m defId) (backrefList m cs)
  | _ => backrefList m cs

/-- Witness map for the back-reference rule: label x, id 0, referenced
twice (occurrence ids 1 and 2). -/
def wmap3 : FootnoteMap := ⟨[("x", 0)], [(0, [1, 2])]⟩

/-- Witness tree: a root holding one definition whose last child is a
paragraph. -/
def wtree3 : Node := .mk (.root ⟨some wmap3, []⟩) []
  [.mk (.footnoteDef (some "x") (some 0) false) [] [.mk .paragraph [] []]]

/-! ## Heading anchors (src/markdown-it/src/plugins/gfm/heading_anchors.rs) -/

/-- AnchorPosition: where the anchor is inserted among the heading's
children (Start, End, or None). -/
inductive AnchorPosition where
  | atStart
  | atEnd
  | noAnchor

/-- HeadingAnchorOptions of heading_anchors.rs (u8 levels as Nat). -/
structure HeadingAnchorOptions where
  minLevel : Nat
  maxLevel : Nat
  idOnHeading : Bool
  position : AnchorPosition
  classes : List String
  innerHtml : String

/-- Modelled from the spec: the github_slugger state (the crate is not
among the provided sources); it counts previously issued base slugs for
deterministic duplicate disambiguation. -/
structure Slugger where
  seen : List (String × Nat)

/-- Modelled from the spec: base slug derivation from heading text (slug
generation is an excluded external collaborator; only determinism
matters here). -/
def slugify (s : String) : String :=
  String.mk (s.toList.map (fun c => if c = ' ' then '-' else foldCase c))

/-- Counter bump for an issued base slug. -/
def bumpSeen (target : String) : List (String × Nat) → List (String × Nat)
  | [] => []
  | (k, n) :: rest =>
    if k = target then (k, n + 1) :: rest else (k, n) :: bumpSeen target rest

/-- Modelled from the spec: Slugger::slug — first occurrence of a base
slug is issued verbatim, the n-th repetition gets a -n suffix. -/
def Slugger.slug (sl : Slugger) (text : String) : String × Slugger :=
  let base := slugify text
  match sl.seen.find? (fun p => p.1 == base) with
  | some p => (base ++ "-" ++ toString p.2, ⟨bumpSeen base sl.seen⟩)
  | none => (base, ⟨sl.seen ++ [(base, 1)]⟩)

mutual

/-- Node::collect_text: depth-first concatenation of text leaf content. -/
def collectText : Node → String
  | .mk (.textNode s) _ cs => s ++ collectTextList cs
  | .mk _ _ cs => collectTextList cs

/-- collect_text over a child list. -/
def collectTextList : List Node → String
  | [] => ""
  | c :: cs => collectText c ++ collectTextList cs

end

/-- The heading level of an ATXHeading or SetextHeader payload. -/
def headingLevel : NV → Option Nat
  | .atxHeading lvl => some lvl
  | .setextHeader lvl => some lvl
  | _ => none

/-- The anchor link node built by AddHeadingAnchors::run: href is the
slug, the id sits on the anchor exactly when it is not put on the heading,
attrs are aria-hidden then the classes, the single child is the inner
HTML fragment. -/
def anchorLinkNode (opts : HeadingAnchorOptions) (slug : String) : Node :=
  .mk (.headingAnchor slug (if opts.idOnHeading then none else some slug))
    ([("aria-hidden", "true")] ++ opts.classes.map (fun cl => ("class", cl)))
    [.mk (.htmlInline opts.innerHtml) [] []]

mutual

/-- AddHeadingAnchors::run on a subtree, threading the slugger in
pre-order.  The Rust walk applies the visitor before descending and then
also visits the freshly inserted anchor node; the anchor subtree contains
no heading, so processing the original children and then inserting the
anchor is equivalent and keeps the recursion structural. -/
def anchorRun (opts : HeadingAnchorOptions) (sl : Slugger) : Node → Node × Slugger
  | .mk v a cs =>
    match headingLevel v with
    | some lvl =>
      if lvl < opts.minLevel || lvl > opts.maxLevel then
        let r := anchorRunList opts sl cs
        (.mk v a r.1, r.2)
      else
        let pr := Slugger.slug sl (collectText (.mk v a cs))
        let a2 := if opts.idOnHeading then a ++ [("id", pr.1)] else a
        let r := anchorRunList opts pr.2 cs
        let cs2 :=
          match opts.position with
          | .atStart => anchorLinkNode opts pr.1 :: r.1
          | .atEnd => r.1 ++ [anchorLinkNode opts pr.1]
          | .noAnchor => r.1
        (.mk v a2 cs2, r.2)
    | none =>
      let r := anchorRunList opts sl cs
      (.mk v a r.1, r.2)

/-- anchorRun over a child list, threading the slugger left to right. -/
def anchorRunList (opts : HeadingAnchorOptions) (sl : Slugger) : List Node → List Node × Slugger
  | [] => ([], sl)
  | c :: cs =>
    let r := anchorRun opts sl c
    let r2 := anchorRunList opts r.2 cs
    (r.1 :: r2.1, r2.2)

end

/-- Is this node a heading anchor (by payload identity)? -/
def isAnchorNode (n : Node) : Bool :=
  match n.value with
  | .headingAnchor _ _ => true
  | _ => false

/-- Does the node carry an id render attribute? -/
def hasIdAttr (n : Node) : Bool := n.attrs.any (fun p => p.1 == "id")

/-- Does the node have a heading-anchor child? -/
def hasAnchorChild (n : Node) : Bool := n.children.any isAnchorNode

/-- The visitor result of AddHeadingAnchors::run at a heading node of the
given level (the shared body of the ATX and setext branches). -/
def anchorHeadingResult (opts : HeadingAnchorOptions) (sl : Slugger) (v : NV)
    (a : List (String × String)) (cs : List Node) (lvl : Nat) : Node × Slugger :=
  if lvl < opts.minLevel || lvl > opts.maxLevel then
    (.mk v a (anchorRunList opts sl cs).1, (anchorRunList opts sl cs).2)
  else
    let pr := Slugger.slug sl (collectText (.mk v a cs))
    let a2 := if opts.idOnHeading then a ++ [("id", pr.1)] else a
    let r := anchorRunList opts pr.2 cs
    let cs2 :=
      match opts.position with
      | .atStart => anchorLinkNode opts pr.1 :: r.1
      | .atEnd => r.1 ++ [anchorLinkNode opts pr.1]
      | .noAnchor => r.1
    (.mk v a2 cs2, r.2)

/-- Witness options for C8 (amended): range [1, 6], anchor at start, id on
the anchor. -/
def c8wopts : HeadingAnchorOptions := ⟨1, 6, false, .atStart, ["anchor"], "i"⟩

/-- Witness heading children for C8 (amended). -/
def c8wcs : List Node := [.mk (.textNode "t") [] []]

/-! ## Footnote definition scanner
(src/markdown-it/src/plugins/pandoc/footnote/definitions.rs)

The block-parser surface consumed by FootnoteDefinitionScanner::run,
restricted to the state the rule reads or writes: current line index,
per-line indentation offsets, the block-indent counter, the source
lines, the current node, the root extension store, and the md max_indent
setting; rest stands opaquely for all further tokenizer state. -/

/-- The two per-line offset fields the rule mutates (the real LineOffsets
has further fields the rule clones and restores wholesale; restoring
these two captures the same frame property). -/
structure LineOffsets where
  firstNonspace : Nat
  indentNonspace : Int
deriving DecidableEq

/-- Modelled from the spec: the block-parser state surface (BlockState of
markdown-it.rs is not among the provided sources). -/
structure BlockState where
  line : Nat
  lineOffsets : List LineOffsets
  blkIndent : Nat
  lines : List String
  node : Node
  ext : RootExt
  mdMaxIndent : Int
  rest : Nat

/-- Modelled from the spec: BlockState::line_indent — the line's
indentation relative to the current block indent. -/
def BlockState.lineIndent (s : BlockState) (i : Nat) : Int :=
  (match s.lineOffsets.get? i with
   | some lo => lo.indentNonspace
   | none => 0) - (s.blkIndent : Int)

/-- Modelled from the spec: BlockState::get_line. -/
def BlockState.getLine (s : BlockState) (i : Nat) : String :=
  (s.lines.get? i).getD ""

/-- The label-gathering loop of FootnoteDefinitionScanner::is_def: chars
up to a closing bracket that must be followed by a colon; a space aborts;
end of line aborts. -/
def labelLoop : List Char → Option (List Char × List Char)
  | [] => none
  | ']' :: rest =>
    match rest with
    | ':' :: rest2 => some ([], rest2)
    | _ => none
  | ' ' :: _ => none
  | c :: rest =>
    match labelLoop rest with
    | some (lab, rest2) => some (c :: lab, rest2)
    | none => none

/-- The space-counting loop of is_def: leading spaces and tabs after the
colon (a tab counts 1, as in the code). -/
def countSpaces : List Char → Nat
  | ' ' :: rest => 1 + countSpaces rest
  | '\t' :: rest => 1 + countSpaces rest
  | _ => 0

/-- FootnoteDefinitionScanner::is_def. -/
def FootnoteDefinitionScanner.isDef (s : BlockState) : Option (String × Nat) :=
  if s.lineIndent s.line ≥ s.mdMaxIndent then none
  else
    match (s.getLine s.line).toList with
    | '[' :: '^' :: rest =>
      match labelLoop rest with
      | some (lab, rest2) =>
        if lab.isEmpty then none else some (String.mk lab, countSpaces rest2)
      | none => none
    | _ => none

/-- Modelled from the spec: FootnoteMap::add_def — a fresh stable id for
a first-sighted label, none for a repeated label (only the first
definition of a label is kept). -/
def FootnoteMap.addDef (m : FootnoteMap) (label : String) : Option Nat × FootnoteMap :=
  match m.defs.find? (fun p => p.1 == label) with
  | some _ => (none, m)
  | none => (some m.defs.length, ⟨m.defs ++ [(label, m.defs.length)], m.refs⟩)

/-- RootExtSet::get_or_insert_default for the FootnoteMap slot. -/
def RootExt.getOrInsertFMap (e : RootExt) : FootnoteMap × RootExt :=
  match e.fmap with
  | some m => (m, e)
  | none => (⟨[], []⟩, ⟨some ⟨[], []⟩, e.rest⟩)

/-- The state mutations FootnoteDefinitionScanner::run performs before
the nested tokenize call: record the label in the footnote map, swap in
the fresh FootnoteDefinition node, shift the first line's offsets past
the label prefix, and raise the block indent by 4. -/
def fdEnter (s : BlockState) (label : String) (spaces : Nat) : BlockState :=
  let gm := RootExt.getOrInsertFMap s.ext
  let ad := gm.1.addDef label
  let lo := (s.lineOffsets.get? s.line).getD ⟨0, 0⟩
  { s with
    ext := ⟨some ad.2, gm.2.rest⟩,
    node := .mk (.footnoteDef (some label) ad.1 false) [] [],
    lineOffsets := s.lineOffsets.set s.line
      ⟨lo.firstNonspace + ("[^]:".length + label.length + spaces),
       lo.indentNonspace + (("[^]:".length : Int) + (spaces : Int))⟩,
    blkIndent := s.blkIndent + 4 }

/-- The state restoration after the nested tokenize call: lower the block
indent by 4, compute the consumed line count, restore the first line's
offsets and the current line index, and swap the original node back,
returning the definition node. -/
def fdRestore (orig : BlockState) (s4 : BlockState) (oldNode : Node) :
    (Node × Nat) × BlockState :=
  ((s4.node, s4.line - orig.line),
   { s4 with
     blkIndent := s4.blkIndent - 4,
     lineOffsets := s4.lineOffsets.set orig.line ((orig.lineOffsets.get? orig.line).getD ⟨0, 0⟩),
     line := orig.line,
     node := oldNode })

/-- FootnoteDefinitionScanner::run, parameterized by the nested
re-entrant tokenize call (the block tokenizer is not among the provided
sources; the theorem takes its contract as hypotheses). -/
def FootnoteDefinitionScanner.run (tokenize : BlockState → BlockState) (s : BlockState) :
    Option ((Node × Nat) × BlockState) :=
  match FootnoteDefinitionScanner.isDef s with
  | none => none
  | some (label, spaces) => some (fdRestore s (tokenize (fdEnter s label spaces)) s.node)

/-- Witness current node for C10. -/
def c10root : Node := .mk (.root ⟨none, []⟩) [] []

/-- Witness block state for C10: one line holding a footnote definition
label, offsets present for that line. -/
def c10s : BlockState := ⟨0, [⟨0, 0⟩], 0, ["[^a]: x"], c10root, ⟨none, []⟩, 4, 0⟩

/-- The state C10's witness run produces: block indent and line restored,
offsets restored, node swapped back; only the extension store changed
(through the taken footnote map, by recording the definition label). -/
def c10s2 : BlockState :=
  ⟨0, [⟨0, 0⟩], 0, ["[^a]: x"], c10root, ⟨some ⟨[("a", 0)], []⟩, []⟩, 4, 0⟩

/-! ## Delimiter-pairing engine (generics/inline/emph_pair, not among the
provided sources)

Modelled from the spec: the generic delimiter-pairing algorithm shared by
emphasis, strong emphasis and strikethrough.  A left-to-right scan keeps
a stack of candidate openers; a closing run scans backward for the
nearest compatible opener of the same marker, skipping candidates the
rule-of-3 tie-break rejects; a match consumes the minimal compatible
length (2 when both runs still hold at least 2 marker characters, else
1), wraps the enclosed content, keeps an opener remainder on the stack
and re-pushes a closer remainder as a new opener candidate; unmatched
runs degrade to literal marker text at scan end.  Two tie-break triggers
are embedded: the spec's wording (reject only when BOTH runs can open
and close) and CommonMark's actual rule (reject when AT LEAST ONE run
can both open and close). -/

/-- A delimiter run: marker character, remaining length, flanking flags. -/
structure DelimRun where
  marker : Char
  len : Nat
  canOpen : Bool
  canClose : Bool
deriving DecidableEq

/-- Inline scan tokens: text runs and marker-character runs. -/
inductive Tok where
  | text (s : String)
  | delim (d : DelimRun)

/-- Output inline nodes: text, or a wrapped span (weight 1 = light,
2 = heavy) with nested children. -/
inductive Inl where
  | text (s : String)
  | wrap (marker : Char) (weight : Nat) (children : List Inl)

/-- The arithmetic core of the rule-of-3 tie-break: the sum of the run
lengths is a multiple of 3 and not both lengths are multiples of 3. -/
def ruleOf3 (o c : DelimRun) : Bool :=
  (o.len + c.len) % 3 == 0 && !(o.len % 3 == 0 && c.len % 3 == 0)

/-- Modelled from the spec: the tie-break as the spec words it — applied
only when BOTH the opener and the closer can both open and close. -/
def tieRejectSpecBoth (o c : DelimRun) : Bool :=
  ((o.canOpen && o.canClose) && (c.canOpen && c.canClose)) && ruleOf3 o c

/-- CommonMark's actual tie-break trigger: applied when AT LEAST ONE of
the two runs can both open and close. -/
def tieRejectOneOf (o c : DelimRun) : Bool :=
  ((o.canOpen && o.canClose) || (c.canOpen && c.canClose)) && ruleOf3 o c

/-- A run left unmatched degrades to literal marker text. -/
def litOf (d : DelimRun) : Inl := .text (String.mk (List.replicate d.len d.marker))

/-- Scanner state: the opener stack (newest first, each with the content
accumulated after it) and the finished content before the oldest opener. -/
structure EmphState where
  frames : List (DelimRun × List Inl)
  base : List Inl

/-- Flatten a newest-first prefix of the opener stack back into content:
each unmatched opener degrades to literal text followed by the content
accumulated after it (oldest first in document order). -/
def innerFlatten : List (DelimRun × List Inl) → List Inl
  | [] => []
  | (d, items) :: fs => innerFlatten fs ++ [litOf d] ++ items

/-- Append a finished inline item at the current scan position. -/
def pushItem (st : EmphState) (it : Inl) : EmphState :=
  match st.frames with
  | [] => ⟨[], st.base ++ [it]⟩
  | (d, items) :: fs => ⟨(d, items ++ [it]) :: fs, st.base⟩

/-- Backward scan through the opener stack for the nearest compatible
opener: same marker, can open, and not rejected by the tie-break. -/
def findOpener (tie : DelimRun → DelimRun → Bool) (c : DelimRun) :
    List (DelimRun × List Inl) → Option Nat
  | [] => none
  | (d, _) :: fs =>
    if d.marker == c.marker && d.canOpen && !(tie d c) then some 0
    else (findOpener tie c fs).map (fun n => n + 1)

/-- A successful match at stack index k: consume the minimal compatible
length from each run, wrap the enclosed content (inner unmatched openers
degrade to literal text), keep an opener remainder on the stack, re-push
a closer remainder as a new opener candidate. -/
def doMatch (st : EmphState) (k : Nat) (d : DelimRun) : EmphState :=
  match st.frames.get? k with
  | none => st
  | some (od, oitems) =>
    let consumed := if od.len ≥ 2 && d.len ≥ 2 then 2 else 1
    let node : Inl := .wrap d.marker consumed (oitems ++ innerFlatten (st.frames.take k))
    let rest := st.frames.drop (k + 1)
    let st2 : EmphState :=
      if od.len - consumed > 0 then
        ⟨({ od with len := od.len - consumed }, [node]) :: rest, st.base⟩
      else
        pushItem ⟨rest, st.base⟩ node
    if d.len - consumed > 0 then ⟨({ d with len := d.len - consumed }, []) :: st2.frames, st2.base⟩
    else st2

/-- One scan step. -/
def processTok (tie : DelimRun → DelimRun → Bool) (st : EmphState) (t : Tok) : EmphState :=
  match t with
  | .text s => pushItem st (.text s)
  | .delim d =>
    if d.canClose then
      match findOpener tie d st.frames with
      | some k => doMatch st k d
      | none => if d.canOpen then ⟨(d, []) :: st.frames, st.base⟩ else pushItem st (litOf d)
    else if d.canOpen then ⟨(d, []) :: st.frames, st.base⟩
    else pushItem st (litOf d)

/-- Scan end: every opener still on the stack degrades to literal text. -/
def finalizeScan (st : EmphState) : List Inl := st.base ++ innerFlatten st.frames

/-- The full scan with a given tie-break trigger. -/
def emphProcess (tie : DelimRun → DelimRun → Bool) (toks : List Tok) : List Inl :=
  finalizeScan (toks.foldl (processTok tie) ⟨[], []⟩)

/-- The engine with the tie-break trigger as the spec words it. -/
def emphSpecProcess : List Tok → List Inl := emphProcess tieRejectSpecBoth

/-- The engine with CommonMark's one-of tie-break trigger. -/
def emphCMProcess : List Tok → List Inl := emphProcess tieRejectOneOf

/-- Whitespace test for a neighbouring character (none = span boundary,
treated as whitespace). -/
def isWsOpt : Option Char → Bool
  | none => true
  | some c => c = ' ' || c = '\t' || c = '\n'

/-- Word-character test for a neighbouring character. -/
def isWordOpt : Option Char → Bool
  | none => false
  | some c => c.isAlphanum

/-- Modelled from the spec: flanking — a run can open if the following
character is not whitespace (and, when intraword is illegal, not a word
character); mirror condition on the preceding character for can close. -/
def mkDelim (m : Char) (iw : Bool) (len : Nat) (prev next : Option Char) : DelimRun :=
  ⟨m, len,
    !isWsOpt next && (iw || !isWordOpt next),
    !isWsOpt prev && (iw || !isWordOpt prev)⟩

mutual

/-- Token scanner, inside a marker run of the given current count. -/
def tokRun (m : Char) (iw : Bool) (runPrev : Option Char) (count : Nat) : List Char → List Tok
  | [] => [.delim (mkDelim m iw count runPrev none)]
  | c :: rest =>
    if c = m then tokRun m iw runPrev (count + 1) rest
    else .delim (mkDelim m iw count runPrev (some c)) :: tokText m iw [c] rest

/-- Token scanner, inside a text run accumulated so far. -/
def tokText (m : Char) (iw : Bool) (acc : List Char) : List Char → List Tok
  | [] => [.text (String.mk acc)]
  | c :: rest =>
    if c = m then .text (String.mk acc) :: tokRun m iw acc.getLast? 1 rest
    else tokText m iw (acc ++ [c]) rest

end

/-- Split an inline content span into text runs and tagged marker runs
for one marker character. -/
def tokenize (m : Char) (iw : Bool) (s : String) : List Tok :=
  match s.toList with
  | [] => []
  | c :: rest => if c = m then tokRun m iw none 1 rest else tokText m iw [c] rest

/-- The nesting CommonMark's rule-of-3 tie-break dictates for the input
with two stars, a, one star, b, two stars: strong emphasis around the
content a, literal star, b. -/
def cmDictatedA : List Inl := [.wrap '*' 2 [.text "a", .text "*", .text "b"]]

/-- The nesting CommonMark's rule-of-3 tie-break dictates for the input
with one star, a, two stars, b, one star: emphasis around the content a,
literal double star, b. -/
def cmDictatedB : List Inl := [.wrap '*' 1 [.text "a", .text "**", .text "b"]]

/-- Weight of the first wrapped node of an inline list. -/
def headWeight : List Inl → Option Nat
  | .wrap _ w _ :: _ => some w
  | _ => none

/-! ## Theorems -/

theorem lookupEntry_bump_ne (target other : String)
    (es : List (String × String × Nat)) (h : other ≠ target) :
    lookupEntry other (bumpEntry target es) = lookupEntry other es := by
  induction es with
  | nil => rfl
  | cons e rest ih =>
    obtain ⟨ek, s, l⟩ := e
    by_cases h1 : ek = target
    · subst h1
      simp only [bumpEntry, if_pos rfl, lookupEntry]
      rw [if_neg (fun h2 : ek = other => h h2.symm), if_neg (fun h2 : ek = other => h h2.symm)]
    · simp only [bumpEntry, if_neg h1, lookupEntry]
      by_cases h2 : ek = other
      · rw [if_pos h2, if_pos h2]
      · rw [if_neg h2, if_neg h2, ih]

theorem lookupEntry_bump_same (target : String) (es : List (String × String × Nat)) :
    lookupEntry target (bumpEntry target es)
      = (lookupEntry target es).map (fun sl => (sl.1, sl.2 + 1)) := by
  induction es with
  | nil => rfl
  | cons e rest ih =>
    obtain ⟨ek, s, l⟩ := e
    by_cases h1 : ek = target
    · simp only [bumpEntry, if_pos h1, lookupEntry, Option.map]
    · simp only [bumpEntry, if_neg h1, lookupEntry, ih]

theorem lookupEntry_append_one (target : String) (s : String) (l : Nat)
    (es : List (String × String × Nat)) (h : lookupEntry target es = none) :
    lookupEntry target (es ++ [(target, s, l)]) = some (s, l) := by
  induction es with
  | nil => simp [lookupEntry]
  | cons e rest ih =>
    obtain ⟨ek, s2, l2⟩ := e
    simp only [lookupEntry] at h ⊢
    by_cases h1 : ek = target
    · rw [if_pos h1] at h; exact absurd h (by simp)
    · rw [if_neg h1] at h ⊢
      exact ih h

theorem lookupEntry_append_ne (target other : String) (s : String) (l : Nat)
    (es : List (String × String × Nat)) (h : other ≠ target) :
    lookupEntry other (es ++ [(target, s, l)]) = lookupEntry other es := by
  induction es with
  | nil =>
    simp only [List.nil_append, lookupEntry]
    rw [if_neg (fun h2 : target = other => h h2.symm)]
  | cons e rest ih =>
    obtain ⟨ek, s2, l2⟩ := e
    simp only [List.cons_append, lookupEntry]
    by_cases h1 : ek = other
    · rw [if_pos h1, if_pos h1]
    · rw [if_neg h1, if_neg h1]
      exact ih

/-- C5: a render-cache entry does NOT survive exactly as many sweeps as
its recorded liveness count.  A freshly inserted entry (inserted with
counter live_length = 0, never accessed again) is evaluated at the first
Cache::clean call: its usize counter underflows, wrapping to 2^64 - 1 in
release builds (panicking in debug builds), so the entry is retained
rather than evicted.  This theorem evaluates the code at that failing
input. -/
theorem C5_fresh_entry_survives_clean :
    lookupEntry "p_k" (Cache.new.getOrInsert "p" "k" (fun s => s)).cache.entries
      = some ("k", 0) ∧
    lookupEntry "p_k" (Cache.new.getOrInsert "p" "k" (fun s => s)).cache.clean.entries
      = some ("k", USIZE - 1) := by
  constructor <;> rfl

/-- C6: a second get_or_insert call with the same (plugin name, key) pair
returns a string byte-identical to the first call's result and does not
invoke the render function again. -/
theorem C6_second_access_cached (c : Cache) (p k : String) (f : String → String) :
    ((c.getOrInsert p k f).cache.getOrInsert p k f).result = (c.getOrInsert p k f).result ∧
    ((c.getOrInsert p k f).cache.getOrInsert p k f).invoked = false := by
  unfold Cache.getOrInsert
  cases h : lookupEntry (p ++ "_" ++ k) c.entries with
  | some sl =>
    obtain ⟨s, l⟩ := sl
    simp [h, lookupEntry_bump_same, Option.map]
  | none =>
    simp [h, lookupEntry_append_one (p ++ "_" ++ k) (f k) c.liveLength c.entries h]

/-- C7 counterexample: the distinct pairs (a, b_c) and (a_b, c) address
the same cache entry, because entries are keyed by the concatenation
plugin_name + underscore + key, which is not injective in the pair.  The
second call returns the string stored by the first call (not the render
of its own key, which would be Xc), does not invoke the render function,
and increments the first pair's liveness counter. -/
theorem C7_counterexample :
    ((Cache.new.getOrInsert "a" "b_c" (fun s => "X" ++ s)).cache.getOrInsert
        "a_b" "c" (fun s => "X" ++ s)).result = "Xb_c" ∧
    ((Cache.new.getOrInsert "a" "b_c" (fun s => "X" ++ s)).cache.getOrInsert
        "a_b" "c" (fun s => "X" ++ s)).invoked = false ∧
    lookupEntry "a_b_c"
      ((Cache.new.getOrInsert "a" "b_c" (fun s => "X" ++ s)).cache.getOrInsert
        "a_b" "c" (fun s => "X" ++ s)).cache.entries = some ("Xb_c", 1) := by
  refine ⟨rfl, rfl, rfl⟩

/-- C7 amended: two (plugin name, key) pairs address distinct cache
entries whenever their combined key strings differ: a get_or_insert call
for the first pair leaves the entry stored for the second pair untouched,
and its observable outcome (string and render invocation) depends only on
the entry stored under its own combined key, never on the other entry. -/
theorem C7_distinct_combined_keys_no_interference
    (p1 k1 p2 k2 : String) (c c2 : Cache) (f : String → String)
    (hne : p2 ++ "_" ++ k2 ≠ p1 ++ "_" ++ k1)
    (hlook : lookupEntry (p1 ++ "_" ++ k1) c.entries
      = lookupEntry (p1 ++ "_" ++ k1) c2.entries)
    (hll : c.liveLength = c2.liveLength) :
    lookupEntry (p2 ++ "_" ++ k2) (c.getOrInsert p1 k1 f).cache.entries
      = lookupEntry (p2 ++ "_" ++ k2) c.entries ∧
    (c.getOrInsert p1 k1 f).result = (c2.getOrInsert p1 k1 f).result ∧
    (c.getOrInsert p1 k1 f).invoked = (c2.getOrInsert p1 k1 f).invoked := by
  unfold Cache.getOrInsert
  cases h : lookupEntry (p1 ++ "_" ++ k1) c.entries with
  | some sl =>
    obtain ⟨s, l⟩ := sl
    rw [h] at hlook
    simp only [h, ← hlook]
    refine ⟨lookupEntry_bump_ne _ _ _ hne, ?_, ?_⟩ <;> simp
  | none =>
    rw [h] at hlook
    simp only [h, ← hlook, hll]
    refine ⟨lookupEntry_append_ne _ _ _ _ _ hne, ?_, ?_⟩ <;> simp

/-- Witness for C7 amended at concrete inputs: pairs (a, b) and (a, c),
the first cache empty, the second holding an unrelated entry under key
a_c; all hypotheses discharged by evaluation. -/
theorem C7_distinct_combined_keys_no_interference_witness :
    lookupEntry ("a" ++ "_" ++ "c")
        ((Cache.new).getOrInsert "a" "b" (fun s => s)).cache.entries
      = lookupEntry ("a" ++ "_" ++ "c") (Cache.new).entries ∧
    ((Cache.new).getOrInsert "a" "b" (fun s => s)).result
      = ((⟨[("a_c", "Z", 5)], 0⟩ : Cache).getOrInsert "a" "b" (fun s => s)).result ∧
    ((Cache.new).getOrInsert "a" "b" (fun s => s)).invoked
      = ((⟨[("a_c", "Z", 5)], 0⟩ : Cache).getOrInsert "a" "b" (fun s => s)).invoked :=
  C7_distinct_combined_keys_no_interference "a" "b" "a" "c" Cache.new
    ⟨[("a_c", "Z", 5)], 0⟩ (fun s => s) (by decide) (by rfl) (by rfl)

theorem denyTags_lower : ∀ t ∈ denyTags, ∀ c ∈ t, isLowerAZ c = true := by decide

theorem isLowerAZ_ne {c d : Char} (h : isLowerAZ c = true) (hd : isLowerAZ d = false) :
    c ≠ d := by
  intro he
  subst he
  rw [h] at hd
  exact Bool.noConfusion hd

theorem isLowerAZ_ne_lt {c : Char} (h : isLowerAZ c = true) : c ≠ '<' :=
  isLowerAZ_ne h (by decide)

theorem hasBadTagAt_cons (c : Char) (rest : List Char) :
    hasBadTagAt (c :: rest) = (((c == '<') && (firstTag rest).isSome) || hasBadTagAt rest) := rfl

theorem ciMatches_take_no_lt :
    ∀ (t : List Char), (∀ ch ∈ t, isLowerAZ ch = true) →
      ∀ (xs : List Char), ciMatches t xs = true →
        ∀ c ∈ xs.take t.length, (c == '<') = false := by
  intro t
  induction t with
  | nil =>
    intro _ xs _ c hc
    simp at hc
  | cons th ts ih =>
    intro hl xs hm c hc
    cases xs with
    | nil => exact absurd hm (by simp [ciMatches])
    | cons x rest =>
      simp only [ciMatches, Bool.and_eq_true, beq_iff_eq] at hm
      simp only [List.length_cons, List.take_succ_cons, List.mem_cons] at hc
      cases hc with
      | inl he =>
        subst he
        cases hb : c == '<'
        · rfl
        · rw [beq_iff_eq] at hb
          subst hb
          have hth : isLowerAZ th = true := hl th (by simp)
          rw [show foldCase '<' = '<' from rfl] at hm
          exact absurd hm.1.symm (isLowerAZ_ne_lt hth)
      | inr hmem =>
        exact ih (fun ch hch => hl ch (by simp [hch])) rest hm.2 c hmem

theorem hasBadTagAt_append_no_lt :
    ∀ (xs ys : List Char), (∀ c ∈ xs, (c == '<') = false) →
      hasBadTagAt (xs ++ ys) = hasBadTagAt ys := by
  intro xs ys h
  induction xs with
  | nil => rfl
  | cons c rest ih =>
    rw [List.cons_append, hasBadTagAt_cons, h c (by simp), Bool.false_and, Bool.false_or]
    exact ih (fun c2 hc2 => h c2 (by simp [hc2]))

theorem ciMatches_tagFilterChars :
    ∀ (t : List Char), (∀ ch ∈ t, isLowerAZ ch = true) →
      ∀ (xs : List Char), ciMatches t (tagFilterChars xs) = true → ciMatches t xs = true := by
  intro t
  induction t with
  | nil => intro _ xs _; rfl
  | cons th ts ih =>
    intro hl xs hm
    have hth : isLowerAZ th = true := hl th (by simp)
    cases xs with
    | nil => exact absurd hm (by simp [tagFilterChars, ciMatches])
    | cons c rest =>
      by_cases hc : c = '<'
      · subst hc
        cases hft : firstTag rest with
        | some t2 =>
          rw [show tagFilterChars ('<' :: rest)
              = '&' :: 'l' :: 't' :: ';'
                :: (rest.take t2.length ++ tagFilterChars (rest.drop t2.length)) from by
            simp [tagFilterChars, hft]] at hm
          simp only [ciMatches, Bool.and_eq_true, beq_iff_eq] at hm
          rw [show foldCase '&' = '&' from rfl] at hm
          exact absurd hm.1.symm (isLowerAZ_ne hth (by decide))
        | none =>
          rw [show tagFilterChars ('<' :: rest) = '<' :: tagFilterChars rest from by
            simp [tagFilterChars, hft]] at hm
          simp only [ciMatches, Bool.and_eq_true, beq_iff_eq] at hm
          rw [show foldCase '<' = '<' from rfl] at hm
          exact absurd hm.1.symm (isLowerAZ_ne_lt hth)
      · rw [show tagFilterChars (c :: rest) = c :: tagFilterChars rest from by
          simp [tagFilterChars, hc]] at hm
        simp only [ciMatches, Bool.and_eq_true] at hm ⊢
        exact ⟨hm.1, ih (fun ch hch => hl ch (by simp [hch])) rest hm.2⟩

theorem firstTag_tagFilterChars_none (xs : List Char) (h : firstTag xs = none) :
    firstTag (tagFilterChars xs) = none := by
  rw [firstTag, List.find?_eq_none] at h ⊢
  intro t ht
  cases hm : ciMatches t (tagFilterChars xs)
  · simp
  · exact absurd (ciMatches_tagFilterChars t (denyTags_lower t ht) xs hm) (by
      have := h t ht
      simp at this
      simp [this])

theorem hasBadTagAt_tagFilterChars :
    ∀ (n : Nat) (cs : List Char), cs.length ≤ n → hasBadTagAt (tagFilterChars cs) = false := by
  intro n
  induction n with
  | zero =>
    intro cs hlen
    rw [List.length_eq_zero.mp (Nat.le_zero.mp hlen)]
    rw [show tagFilterChars [] = [] from by simp [tagFilterChars]]
    rfl
  | succ n ih =>
    intro cs hlen
    cases cs with
    | nil =>
      rw [show tagFilterChars [] = [] from by simp [tagFilterChars]]
      rfl
    | cons c rest =>
      simp only [List.length_cons, Nat.succ_le_succ_iff] at hlen
      by_cases hc : c = '<'
      · subst hc
        cases hft : firstTag rest with
        | some t =>
          rw [show tagFilterChars ('<' :: rest)
              = '&' :: 'l' :: 't' :: ';'
                :: (rest.take t.length ++ tagFilterChars (rest.drop t.length)) from by
            simp [tagFilterChars, hft]]
          have htag : t ∈ denyTags := by
            have := List.find?_some hft
            exact List.mem_of_find?_eq_some hft
          have hmatch : ciMatches t rest = true := by
            have := List.find?_some hft
            simpa using this
          rw [hasBadTagAt_cons, hasBadTagAt_cons, hasBadTagAt_cons, hasBadTagAt_cons]
          rw [show (('&' : Char) == '<') = false from rfl,
            show (('l' : Char) == '<') = false from rfl,
            show (('t' : Char) == '<') = false from rfl,
            show ((';' : Char) == '<') = false from rfl]
          simp only [Bool.false_and, Bool.false_or]
          rw [hasBadTagAt_append_no_lt _ _
            (ciMatches_take_no_lt t (denyTags_lower t htag) rest hmatch)]
          exact ih (rest.drop t.length) (le_trans (by simp) hlen)
        | none =>
          rw [show tagFilterChars ('<' :: rest) = '<' :: tagFilterChars rest from by
            simp [tagFilterChars, hft]]
          rw [hasBadTagAt_cons, firstTag_tagFilterChars_none rest hft]
          simp only [Option.isSome_none, Bool.and_false, Bool.false_or]
          exact ih rest hlen
      · rw [show tagFilterChars (c :: rest) = c :: tagFilterChars rest from by
          simp [tagFilterChars, hc]]
        rw [hasBadTagAt_cons]
        rw [ih rest hlen]
        cases hb : c == '<'
        · simp
        · rw [beq_iff_eq] at hb
          exact absurd hb hc

theorem contentClean_tagFilterValue (v : NV) : contentClean (tagFilterValue v) = true := by
  cases v with
  | htmlBlock content =>
    simp only [tagFilterValue, contentClean]
    rw [show (String.mk (tagFilterChars content.toList)).toList
        = tagFilterChars content.toList from rfl]
    rw [hasBadTagAt_tagFilterChars content.toList.length content.toList le_rfl]
    rfl
  | htmlInline content =>
    simp only [tagFilterValue, contentClean]
    rw [show (String.mk (tagFilterChars content.toList)).toList
        = tagFilterChars content.toList from rfl]
    rw [hasBadTagAt_tagFilterChars content.toList.length content.toList le_rfl]
    rfl
  | root ext => rfl
  | paragraph => rfl
  | footnoteDef label defId isInline => rfl
  | footnotesContainer => rfl
  | placeholderNode => rfl
  | footnoteRefAnchor refIds => rfl
  | atxHeading level => rfl
  | setextHeader level => rfl
  | headingAnchor href anchorId => rfl
  | textNode content => rfl
  | otherNode tag => rfl

mutual

theorem tagFilterRun_clean : ∀ n : Node, treeContentsClean (tagFilterRun n) = true
  | .mk v a cs => by
    rw [show tagFilterRun (.mk v a cs) = .mk (tagFilterValue v) a (tagFilterList cs) from rfl]
    rw [show treeContentsClean (.mk (tagFilterValue v) a (tagFilterList cs))
        = (contentClean (tagFilterValue v) && listContentsClean (tagFilterList cs)) from rfl]
    rw [contentClean_tagFilterValue v, tagFilterList_clean cs]
    rfl

theorem tagFilterList_clean : ∀ l : List Node, listContentsClean (tagFilterList l) = true
  | [] => rfl
  | c :: cs => by
    rw [show tagFilterList (c :: cs) = tagFilterRun c :: tagFilterList cs from rfl]
    rw [show listContentsClean (tagFilterRun c :: tagFilterList cs)
        = (treeContentsClean (tagFilterRun c) && listContentsClean (tagFilterList cs)) from rfl]
    rw [tagFilterRun_clean c, tagFilterList_clean cs]
    rfl

end

/-- C9: after TagFilter::run, every HtmlBlock and HtmlInline node of the
tree has a content in which no occurrence of a less-than sign immediately
followed by a denylisted tag name (iframe, noembed, noframes, plaintext,
script, title, textarea, xmp, in any letter case) remains: each such
occurrence was replaced by the escape sequence followed by the original
tag text. -/
theorem C9_tag_filter_no_denylisted_tag_remains (n : Node) :
    treeContentsClean (tagFilterRun n) = true :=
  tagFilterRun_clean n

/-! ## Lemmas about pruning and collection -/

theorem isDef_pruneNode (n : Node) : (pruneNode n).isDef = n.isDef := by
  obtain ⟨v, a, cs⟩ := n
  cases v <;> rfl

mutual

theorem childrenDefFree_pruneNode : ∀ n : Node, childrenDefFree (pruneNode n) = true
  | .mk v a cs => by
    rw [show pruneNode (.mk v a cs) = .mk v a (pruneList cs) from rfl]
    rw [show childrenDefFree (.mk v a (pruneList cs)) = listDefFree (pruneList cs) from rfl]
    exact listDefFree_pruneList cs

theorem listDefFree_pruneList : ∀ l : List Node, listDefFree (pruneList l) = true
  | [] => rfl
  | c :: cs => by
    rw [show pruneList (c :: cs)
        = if c.isDef then pruneList cs else pruneNode c :: pruneList cs from rfl]
    cases hd : c.isDef with
    | true =>
      rw [if_pos rfl]
      exact listDefFree_pruneList cs
    | false =>
      rw [if_neg Bool.false_ne_true]
      rw [show listDefFree (pruneNode c :: pruneList cs)
          = ((!(pruneNode c).isDef && childrenDefFree (pruneNode c))
              && listDefFree (pruneList cs)) from rfl]
      rw [isDef_pruneNode, hd, childrenDefFree_pruneNode c, listDefFree_pruneList cs]
      rfl

end

theorem survivorOf_not_def (m : FootnoteMap) (c : Node) (h : c.isDef = false) :
    survivorOf m c = [] := by
  obtain ⟨v, a, cs⟩ := c
  cases v
  case footnoteDef label defId isInline => exact absurd h (by simp [Node.isDef])
  all_goals rfl

theorem survivorOf_props (m : FootnoteMap) (c : Node) :
    ∀ d ∈ survivorOf m c, d.isDef = true ∧ defSurvives m d = true := by
  intro d hd
  obtain ⟨v, a, cs⟩ := c
  cases v
  case footnoteDef label defId isInline =>
    cases defId with
    | none => simp [survivorOf] at hd
    | some i =>
      by_cases hr : (m.referencedBy i).isEmpty = true
      · simp [survivorOf, hr] at hd
      · have hr2 : (m.referencedBy i).isEmpty = false := Bool.eq_false_iff.mpr hr
        by_cases hi : isInline = true
        · rw [show survivorOf m (.mk (.footnoteDef label (some i) isInline) a cs)
              = [.mk (.footnoteDef label (some i) isInline) a [.mk .paragraph [] cs]] from by
            simp [survivorOf, hr2, hi]] at hd
          rw [List.mem_singleton] at hd
          subst hd
          exact ⟨rfl, by simp [defSurvives, hr2]⟩
        · have hi2 : isInline = false := Bool.eq_false_iff.mpr hi
          rw [show survivorOf m (.mk (.footnoteDef label (some i) isInline) a cs)
              = [.mk (.footnoteDef label (some i) isInline) a cs] from by
            simp [survivorOf, hr2, hi2]] at hd
          rw [List.mem_singleton] at hd
          subst hd
          exact ⟨rfl, by simp [defSurvives, hr2]⟩
  all_goals simp [survivorOf] at hd

theorem levelDefs_props (m : FootnoteMap) :
    ∀ l : List Node, ∀ d ∈ levelDefs m l, d.isDef = true ∧ defSurvives m d = true := by
  intro l
  induction l with
  | nil => intro d hd; simp [levelDefs] at hd
  | cons c cs ih =>
    intro d hd
    rw [show levelDefs m (c :: cs) = survivorOf m c ++ levelDefs m cs from rfl,
      List.mem_append] at hd
    cases hd with
    | inl h => exact survivorOf_props m c d h
    | inr h => exact ih d h

mutual

theorem nodeDefs_props (m : FootnoteMap) :
    ∀ n : Node, ∀ d ∈ nodeDefs m n, d.isDef = true ∧ defSurvives m d = true
  | .mk v a cs => by
    intro d hd
    rw [show nodeDefs m (.mk v a cs) = levelDefs m cs ++ listDeepDefs m cs from rfl,
      List.mem_append] at hd
    cases hd with
    | inl h => exact levelDefs_props m cs d h
    | inr h => exact listDeepDefs_props m cs d h

theorem listDeepDefs_props (m : FootnoteMap) :
    ∀ l : List Node, ∀ d ∈ listDeepDefs m l, d.isDef = true ∧ defSurvives m d = true
  | [] => by intro d hd; simp [listDeepDefs] at hd
  | c :: cs => by
    intro d hd
    rw [show listDeepDefs m (c :: cs)
        = (if c.isDef then [] else nodeDefs m c) ++ listDeepDefs m cs from rfl,
      List.mem_append] at hd
    cases hd with
    | inl h =>
      cases hc : c.isDef with
      | true => rw [hc, if_pos rfl] at h; simp at h
      | false =>
        rw [hc, if_neg Bool.false_ne_true] at h
        exact nodeDefs_props m c d h
    | inr h => exact listDeepDefs_props m cs d h

end

theorem bnot_true {b : Bool} (h : (!b) = true) : b = false := by
  cases b
  · rfl
  · exact absurd h (by simp)

theorem defFree_levelDefs_nil (m : FootnoteMap) :
    ∀ l : List Node, listDefFree l = true → levelDefs m l = [] := by
  intro l
  induction l with
  | nil => intro _; rfl
  | cons c cs ih =>
    intro h
    simp only [show listDefFree (c :: cs)
        = ((!c.isDef && childrenDefFree c) && listDefFree cs) from rfl,
      Bool.and_eq_true] at h
    rw [show levelDefs m (c :: cs) = survivorOf m c ++ levelDefs m cs from rfl,
      survivorOf_not_def m c (bnot_true h.1.1), ih h.2]
    rfl

mutual

theorem defFree_nodeDefs_nil (m : FootnoteMap) :
    ∀ n : Node, childrenDefFree n = true → nodeDefs m n = []
  | .mk v a cs => fun h => by
    rw [show childrenDefFree (.mk v a cs) = listDefFree cs from rfl] at h
    rw [show nodeDefs m (.mk v a cs) = levelDefs m cs ++ listDeepDefs m cs from rfl,
      defFree_levelDefs_nil m cs h, defFree_listDeepDefs_nil m cs h]
    rfl

theorem defFree_listDeepDefs_nil (m : FootnoteMap) :
    ∀ l : List Node, listDefFree l = true → listDeepDefs m l = []
  | [] => fun _ => rfl
  | c :: cs => fun h => by
    simp only [show listDefFree (c :: cs)
        = ((!c.isDef && childrenDefFree c) && listDefFree cs) from rfl,
      Bool.and_eq_true] at h
    rw [show listDeepDefs m (c :: cs)
        = (if c.isDef then [] else nodeDefs m c) ++ listDeepDefs m cs from rfl,
      bnot_true h.1.1, if_neg Bool.false_ne_true,
      defFree_nodeDefs_nil m c h.1.2, defFree_listDeepDefs_nil m cs h.2]
    rfl

end

mutual

theorem defFree_defsOk (m : FootnoteMap) :
    ∀ n : Node, n.isDef = false → childrenDefFree n = true → defsOk m n = true
  | .mk v a cs => fun hd h => by
    rw [show childrenDefFree (.mk v a cs) = listDefFree cs from rfl] at h
    cases v
    case footnoteDef label defId isInline => exact absurd hd (by simp [Node.isDef])
    all_goals exact defFree_defsOkList m cs h

theorem defFree_defsOkList (m : FootnoteMap) :
    ∀ l : List Node, listDefFree l = true → defsOkList m l = true
  | [] => fun _ => rfl
  | c :: cs => fun h => by
    simp only [show listDefFree (c :: cs)
        = ((!c.isDef && childrenDefFree c) && listDefFree cs) from rfl,
      Bool.and_eq_true] at h
    rw [show defsOkList m (c :: cs) = (defsOk m c && defsOkList m cs) from rfl,
      defFree_defsOk m c (bnot_true h.1.1) h.1.2, defFree_defsOkList m cs h.2]
    rfl

end

theorem levelDefs_defsOk (m : FootnoteMap) :
    ∀ l : List Node, listNoNested l = true → ∀ d ∈ levelDefs m l, defsOk m d = true := by
  intro l
  induction l with
  | nil => intro _ d hd; simp [levelDefs] at hd
  | cons c cs ih =>
    intro h d hd
    simp only [show listNoNested (c :: cs) = (nodeNoNested c && listNoNested cs) from rfl,
      Bool.and_eq_true] at h
    rw [show levelDefs m (c :: cs) = survivorOf m c ++ levelDefs m cs from rfl,
      List.mem_append] at hd
    cases hd with
    | inr h2 => exact ih h.2 d h2
    | inl h2 =>
      obtain ⟨v, a2, ccs⟩ := c
      cases v
      case footnoteDef label defId isInline =>
        have hfree : listDefFree ccs = true := h.1
        have hccs := defFree_defsOkList m ccs hfree
        cases defId with
        | none => simp [survivorOf] at h2
        | some i =>
          by_cases hr : (m.referencedBy i).isEmpty = true
          · simp [survivorOf, hr] at h2
          · have hr2 : (m.referencedBy i).isEmpty = false := Bool.eq_false_iff.mpr hr
            by_cases hi : isInline = true
            · rw [show survivorOf m (.mk (.footnoteDef label (some i) isInline) a2 ccs)
                  = [.mk (.footnoteDef label (some i) isInline) a2
                      [.mk .paragraph [] ccs]] from by
                simp [survivorOf, hr2, hi]] at h2
              rw [List.mem_singleton] at h2
              subst h2
              simp [defsOk, defsOkList, isSinglePara, hr2, hi, hccs]
            · have hi2 : isInline = false := Bool.eq_false_iff.mpr hi
              rw [show survivorOf m (.mk (.footnoteDef label (some i) isInline) a2 ccs)
                  = [.mk (.footnoteDef label (some i) isInline) a2 ccs] from by
                simp [survivorOf, hr2, hi2]] at h2
              rw [List.mem_singleton] at h2
              subst h2
              simp [defsOk, hr2, hi2, hccs]
      all_goals simp [survivorOf] at h2

mutual

theorem noNested_nodeDefs_ok (m : FootnoteMap) :
    ∀ n : Node, nodeNoNested n = true → ∀ d ∈ nodeDefs m n, defsOk m d = true
  | .mk v a cs => fun h d hd => by
    rw [show nodeDefs m (.mk v a cs) = levelDefs m cs ++ listDeepDefs m cs from rfl,
      List.mem_append] at hd
    cases v
    case footnoteDef label defId isInline =>
      have hfree : listDefFree cs = true := h
      cases hd with
      | inl h2 => rw [defFree_levelDefs_nil m cs hfree] at h2; simp at h2
      | inr h2 => rw [defFree_listDeepDefs_nil m cs hfree] at h2; simp at h2
    all_goals
      cases hd with
      | inl h2 => exact levelDefs_defsOk m cs h d h2
      | inr h2 => exact noNested_listDeepDefs_ok m cs h d h2

theorem noNested_listDeepDefs_ok (m : FootnoteMap) :
    ∀ l : List Node, listNoNested l = true → ∀ d ∈ listDeepDefs m l, defsOk m d = true
  | [] => fun _ d hd => by simp [listDeepDefs] at hd
  | c :: cs => fun h d hd => by
    simp only [show listNoNested (c :: cs) = (nodeNoNested c && listNoNested cs) from rfl,
      Bool.and_eq_true] at h
    rw [show listDeepDefs m (c :: cs)
        = (if c.isDef then [] else nodeDefs m c) ++ listDeepDefs m cs from rfl,
      List.mem_append] at hd
    cases hd with
    | inl h2 =>
      cases hc : c.isDef with
      | true => rw [hc, if_pos rfl] at h2; simp at h2
      | false =>
        rw [hc, if_neg Bool.false_ne_true] at h2
        exact noNested_nodeDefs_ok m c h.1 d h2
    | inr h2 => exact noNested_listDeepDefs_ok m cs h.2 d h2

end

theorem defsOkList_append (m : FootnoteMap) (xs ys : List Node) :
    defsOkList m (xs ++ ys) = (defsOkList m xs && defsOkList m ys) := by
  induction xs with
  | nil => rfl
  | cons c cs ih =>
    rw [List.cons_append,
      show defsOkList m (c :: (cs ++ ys)) = (defsOk m c && defsOkList m (cs ++ ys)) from rfl,
      ih, show defsOkList m (c :: cs) = (defsOk m c && defsOkList m cs) from rfl,
      Bool.and_assoc]

theorem defsOkList_of_forall (m : FootnoteMap) :
    ∀ l : List Node, (∀ d ∈ l, defsOk m d = true) → defsOkList m l = true := by
  intro l
  induction l with
  | nil => intro _; rfl
  | cons c cs ih =>
    intro h
    rw [show defsOkList m (c :: cs) = (defsOk m c && defsOkList m cs) from rfl,
      h c (by simp), ih (fun d hd => h d (by simp [hd]))]
    rfl

/-- C2 counterexample: on exRoot (Footnote Map present), the collect rule
emits the container children in parent-visitation order b, a although the
document pre-order of definitions is a, c, b — not first-occurrence
pre-order — and the definition with label c, whose id 2 has zero recorded
references, is NOT dropped: it survives inside defA, nested in the
appended container, so the output still contains a zero-reference
definition. -/
theorem C2_counterexample :
    collectRun exRoot = some exOut ∧
    listDefLabels [exRoot] = [some "a", some "c", some "b"] ∧
    listDefLabels [exOut] = [some "b", some "a", some "c"] ∧
    mex.referencedBy 2 = [] ∧
    getAt exOut [1, 1, 0] = some defC ∧
    defC.isDef = true ∧
    defSurvives mex defC = false := by
  refine ⟨rfl, rfl, rfl, rfl, rfl, rfl, rfl⟩

/-- C2 (amended): on a document whose Footnote Map is present and in
which no footnote definition is nested inside another, the collect rule
(1) yields surviving definitions that are exactly definitions whose id
has recorded references, (2) removes every FootnoteDefinition from its
original tree position (the pruned tree is definition-free), (3) when at
least one definition survives, appends exactly one FootnotesContainerNode
holding the survivors — ordered by the pre-order position of the parent
node each was extracted from, each parent's definitions in sibling order
(not global first-occurrence pre-order) — as the root's final child,
with every surviving inline definition re-wrapped in a single implicit
Paragraph, and (4) when nothing survives, appends no container and
leaves the pruned tree. -/
theorem C2_collect_rule_amended (m : FootnoteMap) (ext : RootExt)
    (a : List (String × String)) (cs : List Node)
    (hm : ext.fmap = some m) (hnn : listNoNested cs = true) :
    (∀ d ∈ levelDefs m cs ++ listDeepDefs m cs, d.isDef = true ∧ defSurvives m d = true) ∧
    listDefFree (pruneList cs) = true ∧
    (levelDefs m cs ++ listDeepDefs m cs ≠ [] →
      collectRun (.mk (.root ext) a cs)
        = some (.mk (.root ext) a (pruneList cs
            ++ [.mk .footnotesContainer [] (levelDefs m cs ++ listDeepDefs m cs)])) ∧
      defsOkList m (pruneList cs
          ++ [.mk .footnotesContainer [] (levelDefs m cs ++ listDeepDefs m cs)]) = true) ∧
    (levelDefs m cs ++ listDeepDefs m cs = [] →
      collectRun (.mk (.root ext) a cs) = some (.mk (.root RootExt.empty) a (pruneList cs))) := by
  obtain ⟨fmap, restE⟩ := ext
  simp only [RootExt.fmap] at hm
  subst hm
  refine ⟨?_, listDefFree_pruneList cs, ?_, ?_⟩
  · intro d hd
    rw [List.mem_append] at hd
    cases hd with
    | inl h2 => exact levelDefs_props m cs d h2
    | inr h2 => exact listDeepDefs_props m cs d h2
  · intro hne
    have hie : (levelDefs m cs ++ listDeepDefs m cs).isEmpty = false := by
      cases hx : levelDefs m cs ++ listDeepDefs m cs with
      | nil => exact absurd hx hne
      | cons d ds => rfl
    constructor
    · show (if (levelDefs m cs ++ listDeepDefs m cs).isEmpty
          then some (Node.mk (.root RootExt.empty) a (pruneList cs))
          else some (.mk (.root ⟨some m, restE⟩) a (pruneList cs
            ++ [.mk .footnotesContainer [] (levelDefs m cs ++ listDeepDefs m cs)])))
        = some (.mk (.root ⟨some m, restE⟩) a (pruneList cs
            ++ [.mk .footnotesContainer [] (levelDefs m cs ++ listDeepDefs m cs)]))
      rw [hie, if_neg Bool.false_ne_true]
    · rw [defsOkList_append, defFree_defsOkList m (pruneList cs) (listDefFree_pruneList cs)]
      have hds : ∀ d ∈ levelDefs m cs ++ listDeepDefs m cs, defsOk m d = true := by
        intro d hd
        rw [List.mem_append] at hd
        cases hd with
        | inl h2 => exact levelDefs_defsOk m cs hnn d h2
        | inr h2 => exact noNested_listDeepDefs_ok m cs hnn d h2
      have hok := defsOkList_of_forall m _ hds
      rw [show defsOkList m [.mk .footnotesContainer []
            (levelDefs m cs ++ listDeepDefs m cs)]
          = (defsOkList m (levelDefs m cs ++ listDeepDefs m cs) && true) from rfl, hok]
      rfl
  · intro heq
    show (if (levelDefs m cs ++ listDeepDefs m cs).isEmpty
        then some (Node.mk (.root RootExt.empty) a (pruneList cs))
        else some (.mk (.root ⟨some m, restE⟩) a (pruneList cs
          ++ [.mk .footnotesContainer [] (levelDefs m cs ++ listDeepDefs m cs)])))
      = some (.mk (.root RootExt.empty) a (pruneList cs))
    rw [heq]
    rfl

/-- Witness for C2 (amended) at a concrete one-definition document; both
hypotheses evaluate by rfl. -/
theorem C2_collect_rule_amended_witness :
    (∀ d ∈ levelDefs wm [wdef] ++ listDeepDefs wm [wdef],
      d.isDef = true ∧ defSurvives wm d = true) ∧
    listDefFree (pruneList [wdef]) = true ∧
    (levelDefs wm [wdef] ++ listDeepDefs wm [wdef] ≠ [] →
      collectRun (.mk (.root ⟨some wm, []⟩) [] [wdef])
        = some (.mk (.root ⟨some wm, []⟩) [] (pruneList [wdef]
            ++ [.mk .footnotesContainer [] (levelDefs wm [wdef] ++ listDeepDefs wm [wdef])])) ∧
      defsOkList wm (pruneList [wdef]
          ++ [.mk .footnotesContainer [] (levelDefs wm [wdef] ++ listDeepDefs wm [wdef])]) = true) ∧
    (levelDefs wm [wdef] ++ listDeepDefs wm [wdef] = [] →
      collectRun (.mk (.root ⟨some wm, []⟩) [] [wdef])
        = some (.mk (.root RootExt.empty) [] (pruneList [wdef]))) :=
  C2_collect_rule_amended wm ⟨some wm, []⟩ [] [wdef] rfl rfl

/-- C4: the footnote core rules do NOT put the taken extension store back
on every path.  Both rules drop it when the Footnote Map is absent, and
the collect rule also drops it when no definitions survive: in each case
the Root is left with the empty store, losing the unrelated extension
data it contained (modelled by the rest slot holding (7, 7)).  This
theorem evaluates both rules on those failing paths. -/
theorem C4_extension_store_dropped :
    backrefFull (.mk (.root ⟨none, [(7, 7)]⟩) [] [])
      = some (.mk (.root RootExt.empty) [] []) ∧
    collectRun (.mk (.root ⟨none, [(7, 7)]⟩) [] [])
      = some (.mk (.root RootExt.empty) [] []) ∧
    collectRun (.mk (.root ⟨some ⟨[], []⟩, [(7, 7)]⟩) [] [])
      = some (.mk (.root RootExt.empty) [] []) ∧
    (⟨none, [(7, 7)]⟩ : RootExt) ≠ RootExt.empty ∧
    (⟨some ⟨[], []⟩, [(7, 7)]⟩ : RootExt) ≠ RootExt.empty := by
  refine ⟨rfl, rfl, rfl, by decide, by decide⟩

/-! ## Lemmas for the back-reference rule -/

theorem backrefList_eq_map (m : FootnoteMap) :
    ∀ l : List Node, backrefList m l = l.map (backrefRun m)
  | [] => rfl
  | c :: cs => by
    rw [show backrefList m (c :: cs) = backrefRun m c :: backrefList m cs from rfl,
      backrefList_eq_map m cs, List.map_cons]

theorem backrefRun_mk (m : FootnoteMap) (v : NV) (a : List (String × String))
    (cs : List Node) : backrefRun m (.mk v a cs) = .mk v a (backrefKids m v cs) := by
  cases v
  case footnoteDef label defId isInline =>
    by_cases hr : (refsOf m defId).isEmpty = true
    · rw [show backrefRun m (.mk (.footnoteDef label defId isInline) a cs)
          = (if (refsOf m defId).isEmpty
              then Node.mk (.footnoteDef label defId isInline) a (backrefList m cs)
              else .mk (.footnoteDef label defId isInline) a
                (appendAnchorTo (refsOf m defId) (backrefList m cs))) from rfl]
      rw [show backrefKids m (.footnoteDef label defId isInline) cs
          = (if (refsOf m defId).isEmpty then backrefList m cs
              else appendAnchorTo (refsOf m defId) (backrefList m cs)) from rfl]
      rw [hr, if_pos rfl, if_pos rfl]
    · have hr2 : (refsOf m defId).isEmpty = false := Bool.eq_false_iff.mpr hr
      rw [show backrefRun m (.mk (.footnoteDef label defId isInline) a cs)
          = (if (refsOf m defId).isEmpty
              then Node.mk (.footnoteDef label defId isInline) a (backrefList m cs)
              else .mk (.footnoteDef label defId isInline) a
                (appendAnchorTo (refsOf m defId) (backrefList m cs))) from rfl]
      rw [show backrefKids m (.footnoteDef label defId isInline) cs
          = (if (refsOf m defId).isEmpty then backrefList m cs
              else appendAnchorTo (refsOf m defId) (backrefList m cs)) from rfl]
      rw [hr2, if_neg Bool.false_ne_true, if_neg Bool.false_ne_true]
  all_goals rfl

theorem appendAnchorTo_get_lt (rs : List Nat) :
    ∀ (l : List Node) (i : Nat), i + 1 < l.length →
      (appendAnchorTo rs l).get? i = l.get? i := by
  intro l
  induction l with
  | nil => intro i hi; simp at hi
  | cons c cs ih =>
    intro i hi
    cases cs with
    | nil => simp at hi
    | cons c2 cs2 =>
      rw [show appendAnchorTo rs (c :: c2 :: cs2) = c :: appendAnchorTo rs (c2 :: cs2) from rfl]
      cases i with
      | zero => rfl
      | succ j =>
        rw [show (c :: appendAnchorTo rs (c2 :: cs2)).get? (j + 1)
            = (appendAnchorTo rs (c2 :: cs2)).get? j from rfl,
          show (c :: c2 :: cs2).get? (j + 1) = (c2 :: cs2).get? j from rfl]
        exact ih j (by simp at hi ⊢; omega)

theorem appendAnchorTo_get_last_para (rs : List Nat) (pa : List (String × String))
    (pcs : List Node) :
    ∀ (l : List Node) (i : Nat), l.get? i = some (.mk .paragraph pa pcs) →
      i + 1 = l.length →
      (appendAnchorTo rs l).get? i = some (.mk .paragraph pa (pcs ++ [anchorNode rs])) := by
  intro l
  induction l with
  | nil => intro i hi _; simp at hi
  | cons c cs ih =>
    intro i hi hlen
    cases cs with
    | nil =>
      have hi0 : i = 0 := by simp at hlen; omega
      subst hi0
      have hc : c = .mk .paragraph pa pcs := by
        rw [show (([c] : List Node).get? 0) = some c from rfl] at hi
        exact Option.some.inj hi
      subst hc
      rfl
    | cons c2 cs2 =>
      rw [show appendAnchorTo rs (c :: c2 :: cs2) = c :: appendAnchorTo rs (c2 :: cs2) from rfl]
      cases i with
      | zero => simp at hlen
      | succ j =>
        rw [show ((c :: c2 :: cs2).get? (j + 1)) = (c2 :: cs2).get? j from rfl] at hi
        rw [show (c :: appendAnchorTo rs (c2 :: cs2)).get? (j + 1)
            = (appendAnchorTo rs (c2 :: cs2)).get? j from rfl]
        exact ih j hi (by simp at hlen ⊢; omega)

theorem appendAnchorTo_get_last_other (rs : List Nat) :
    ∀ (l : List Node) (i : Nat) (c : Node), l.get? i = some c → c.isPara = false →
      i + 1 = l.length → (appendAnchorTo rs l).get? i = some c := by
  intro l
  induction l with
  | nil => intro i c hi _ _; simp at hi
  | cons x cs ih =>
    intro i c hi hp hlen
    cases cs with
    | nil =>
      have hi0 : i = 0 := by simp at hlen; omega
      subst hi0
      have hc : x = c := by
        rw [show (([x] : List Node).get? 0) = some x from rfl] at hi
        exact Option.some.inj hi
      subst hc
      obtain ⟨v, a2, ccs⟩ := x
      cases v
      case paragraph => exact absurd hp (by simp [Node.isPara])
      all_goals rfl
    | cons c2 cs2 =>
      rw [show appendAnchorTo rs (x :: c2 :: cs2) = x :: appendAnchorTo rs (c2 :: cs2) from rfl]
      cases i with
      | zero => simp at hlen
      | succ j =>
        rw [show ((x :: c2 :: cs2).get? (j + 1)) = (c2 :: cs2).get? j from rfl] at hi
        rw [show (x :: appendAnchorTo rs (c2 :: cs2)).get? (j + 1)
            = (appendAnchorTo rs (c2 :: cs2)).get? j from rfl]
        exact ih j c hi hp (by simp at hlen ⊢; omega)

theorem isPara_payload {v : NV} {a : List (String × String)} {cs : List Node}
    (h : (Node.mk v a cs).isPara = true) : v = .paragraph := by
  cases v
  case paragraph => rfl
  all_goals exact absurd h (by simp [Node.isPara])

theorem isPara_backrefRun (m : FootnoteMap) (c : Node) :
    (backrefRun m c).isPara = c.isPara := by
  obtain ⟨v, a, cs⟩ := c
  rw [backrefRun_mk]
  cases v <;> rfl

theorem backrefKids_get (m : FootnoteMap) (v : NV) (cs0 : List Node) (i : Nat) (c : Node)
    (hci : cs0.get? i = some c) :
    (backrefKids m v cs0).get? i = some (backrefRun m c)
    ∨ ∃ (rs : List Nat) (ac : List (String × String)) (csc : List Node),
        c = .mk .paragraph ac csc ∧
        (backrefKids m v cs0).get? i
          = some (.mk .paragraph ac (backrefList m csc ++ [anchorNode rs])) := by
  have hmap : (backrefList m cs0).get? i = some (backrefRun m c) := by
    rw [backrefList_eq_map, List.get?_map, hci]
    rfl
  have hilt : i < cs0.length := by
    by_contra hge
    rw [List.get?_eq_none.mpr (by omega)] at hci
    exact Option.noConfusion hci
  have hlen : (backrefList m cs0).length = cs0.length := by
    rw [backrefList_eq_map, List.length_map]
  cases v
  case footnoteDef label defId isInline =>
    by_cases hr : (refsOf m defId).isEmpty = true
    · left
      rw [show backrefKids m (.footnoteDef label defId isInline) cs0
          = (if (refsOf m defId).isEmpty then backrefList m cs0
              else appendAnchorTo (refsOf m defId) (backrefList m cs0)) from rfl,
        hr, if_pos rfl]
      exact hmap
    · have hr2 : (refsOf m defId).isEmpty = false := Bool.eq_false_iff.mpr hr
      have hkids : backrefKids m (.footnoteDef label defId isInline) cs0
          = appendAnchorTo (refsOf m defId) (backrefList m cs0) := by
        rw [show backrefKids m (.footnoteDef label defId isInline) cs0
            = (if (refsOf m defId).isEmpty then backrefList m cs0
                else appendAnchorTo (refsOf m defId) (backrefList m cs0)) from rfl,
          hr2, if_neg Bool.false_ne_true]
      by_cases hlast : i + 1 < (backrefList m cs0).length
      · left
        rw [hkids, appendAnchorTo_get_lt _ _ _ hlast]
        exact hmap
      · have hieq : i + 1 = (backrefList m cs0).length := by omega
        obtain ⟨vc, ac, csc⟩ := c
        by_cases hpv : (Node.mk vc ac csc).isPara = true
        · have hv : vc = .paragraph := isPara_payload hpv
          subst hv
          right
          refine ⟨refsOf m defId, ac, csc, rfl, ?_⟩
          rw [hkids]
          exact appendAnchorTo_get_last_para _ _ _ _ _
            (by rw [hmap]; rfl) hieq
        · have hpv2 : (Node.mk vc ac csc).isPara = false := Bool.eq_false_iff.mpr hpv
          left
          rw [hkids]
          rw [appendAnchorTo_get_last_other _ _ _ _ hmap
            (by rw [isPara_backrefRun]; exact hpv2) hieq]
  all_goals exact Or.inl hmap

theorem backrefAt_aux :
    ∀ (n : Nat) (p : List Nat) (m : FootnoteMap) (t d : Node), p.length ≤ n →
      d.isDef = true → getAt t p = some d →
      getAt (backrefRun m t) p = some (backrefRun m d) := by
  intro n
  induction n with
  | zero =>
    intro p m t d hlen hd hp
    rw [List.length_eq_zero.mp (Nat.le_zero.mp hlen)] at hp ⊢
    rw [show getAt t [] = some t from rfl] at hp
    rw [Option.some.inj hp]
    rfl
  | succ n ih =>
    intro p m t d hlen hd hp
    cases p with
    | nil =>
      rw [show getAt t [] = some t from rfl] at hp
      rw [Option.some.inj hp]
      rfl
    | cons i p2 =>
      obtain ⟨v, a0, cs0⟩ := t
      cases hci : cs0.get? i with
      | none =>
        rw [show getAt (.mk v a0 cs0) (i :: p2)
            = (match cs0.get? i with
               | some c => getAt c p2
               | none => none) from rfl, hci] at hp
        exact Option.noConfusion hp
      | some c =>
        rw [show getAt (.mk v a0 cs0) (i :: p2)
            = (match cs0.get? i with
               | some c => getAt c p2
               | none => none) from rfl, hci] at hp
        rw [backrefRun_mk]
        rw [show getAt (.mk v a0 (backrefKids m v cs0)) (i :: p2)
            = (match (backrefKids m v cs0).get? i with
               | some c => getAt c p2
               | none => none) from rfl]
        simp only [List.length_cons, Nat.succ_le_succ_iff] at hlen
        cases backrefKids_get m v cs0 i c hci with
        | inl hR =>
          rw [hR]
          exact ih p2 m c d hlen hd hp
        | inr hR =>
          obtain ⟨rs, ac, csc, hc, hR2⟩ := hR
          subst hc
          rw [hR2]
          cases p2 with
          | nil =>
            have hp2 : Node.mk .paragraph ac csc = d := Option.some.inj hp
            rw [← hp2] at hd
            exact absurd hd (by simp [Node.isDef])
          | cons j p3 =>
            have hp2 : (match csc.get? j with
                | some c => getAt c p3
                | none => none) = some d := hp
            show (match (backrefList m csc ++ [anchorNode rs]).get? j with
                | some c => getAt c p3
                | none => none) = some (backrefRun m d)
            cases hcj : csc.get? j with
            | none =>
              rw [hcj] at hp2
              exact Option.noConfusion hp2
            | some gc =>
              rw [hcj] at hp2
              have hjlt : j < csc.length := by
                by_contra hge
                rw [List.get?_eq_none.mpr (by omega)] at hcj
                exact Option.noConfusion hcj
              have hmapj : (backrefList m csc).get? j = some (backrefRun m gc) := by
                rw [backrefList_eq_map, List.get?_map, hcj]
                rfl
              rw [List.get?_append (by rw [backrefList_eq_map, List.length_map]; omega), hmapj]
              exact ih p3 m gc d (by simp at hlen; omega) hd hp2

theorem hrefsOf_anchorRender :
    ∀ rs : List Nat, hrefsOf (anchorRender rs) = rs.map (fun r => "#fnref" ++ toString r) := by
  intro rs
  induction rs with
  | nil => rfl
  | cons r rest ih =>
    rw [show anchorRender (r :: rest)
        = [.rtext " ",
           .ropen "a" [("href", "#fnref" ++ toString r), ("class", "footnote-backref")],
           .rtext "↩︎",
           .rclose "a"] ++ anchorRender rest from by simp [anchorRender]]
    rw [show hrefsOf ([REv.rtext " ",
           .ropen "a" [("href", "#fnref" ++ toString r), ("class", "footnote-backref")],
           .rtext "↩︎",
           .rclose "a"] ++ anchorRender rest)
        = ("#fnref" ++ toString r) :: hrefsOf (anchorRender rest) from rfl]
    rw [ih, List.map_cons]

/-- C3: for every FootnoteDefinition node at any position of the tree,
when its id has a non-empty reference list the back-reference rule leaves
at that position the definition with one FootnoteRefAnchor node appended
— inside the trailing Paragraph child when the last child is a Paragraph,
otherwise as a new last child — carrying the full reference-occurrence
list, whose rendering emits exactly one back-link anchor per reference
occurrence in stable occurrence order; a definition whose reference list
is empty receives no anchor. -/
theorem C3_backref_rule (p : List Nat) (m : FootnoteMap) (t : Node)
    (label : Option String) (defId : Option Nat) (isInline : Bool)
    (a : List (String × String)) (cs : List Node)
    (hp : getAt t p = some (.mk (.footnoteDef label defId isInline) a cs)) :
    (refsOf m defId ≠ [] →
      getAt (backrefRun m t) p
        = some (.mk (.footnoteDef label defId isInline) a
            (appendAnchorTo (refsOf m defId) (backrefList m cs)))) ∧
    (refsOf m defId = [] →
      getAt (backrefRun m t) p
        = some (.mk (.footnoteDef label defId isInline) a (backrefList m cs))) ∧
    hrefsOf (anchorRender (refsOf m defId))
      = (refsOf m defId).map (fun r => "#fnref" ++ toString r) := by
  have haux := backrefAt_aux p.length p m t
    (.mk (.footnoteDef label defId isInline) a cs) le_rfl rfl hp
  rw [show backrefRun m (.mk (.footnoteDef label defId isInline) a cs)
      = (if (refsOf m defId).isEmpty
          then Node.mk (.footnoteDef label defId isInline) a (backrefList m cs)
          else .mk (.footnoteDef label defId isInline) a
            (appendAnchorTo (refsOf m defId) (backrefList m cs))) from rfl] at haux
  refine ⟨?_, ?_, hrefsOf_anchorRender (refsOf m defId)⟩
  · intro hne
    cases hrs : refsOf m defId with
    | nil => exact absurd hrs hne
    | cons r rest =>
      rw [hrs] at haux
      exact haux
  · intro heq
    rw [heq] at haux
    exact haux

/-- Witness for C3 at a doubly-referenced definition: the hypothesis is
discharged by rfl, and the rendered anchor list has exactly two
back-links in occurrence order. -/
theorem C3_backref_rule_witness :
    (refsOf wmap3 (some 0) ≠ [] →
      getAt (backrefRun wmap3 wtree3) [0]
        = some (.mk (.footnoteDef (some "x") (some 0) false) []
            (appendAnchorTo (refsOf wmap3 (some 0))
              (backrefList wmap3 [.mk .paragraph [] []])))) ∧
    (refsOf wmap3 (some 0) = [] →
      getAt (backrefRun wmap3 wtree3) [0]
        = some (.mk (.footnoteDef (some "x") (some 0) false) []
            (backrefList wmap3 [.mk .paragraph [] []]))) ∧
    hrefsOf (anchorRender (refsOf wmap3 (some 0)))
      = (refsOf wmap3 (some 0)).map (fun r => "#fnref" ++ toString r) :=
  C3_backref_rule [0] wmap3 wtree3 (some "x") (some 0) false [] [.mk .paragraph [] []] rfl

theorem anchorRun_heading (opts : HeadingAnchorOptions) (sl : Slugger) (v : NV)
    (a : List (String × String)) (cs : List Node) (lvl : Nat)
    (hv : headingLevel v = some lvl) :
    anchorRun opts sl (.mk v a cs) = anchorHeadingResult opts sl v a cs lvl := by
  cases v
  case atxHeading lvl2 =>
    have h2 : lvl2 = lvl := by
      simp [headingLevel] at hv
      exact hv
    subst h2
    rfl
  case setextHeader lvl2 =>
    have h2 : lvl2 = lvl := by
      simp [headingLevel] at hv
      exact hv
    subst h2
    rfl
  all_goals exact absurd hv (by simp [headingLevel])

theorem anchorRun_other (opts : HeadingAnchorOptions) (sl : Slugger) (v : NV)
    (a : List (String × String)) (cs : List Node) (hv : headingLevel v = none) :
    anchorRun opts sl (.mk v a cs)
      = (.mk v a (anchorRunList opts sl cs).1, (anchorRunList opts sl cs).2) := by
  cases v
  case atxHeading lvl => exact absurd hv (by simp [headingLevel])
  case setextHeader lvl => exact absurd hv (by simp [headingLevel])
  all_goals rfl

theorem anchorHeadingResult_out (opts : HeadingAnchorOptions) (sl : Slugger) (v : NV)
    (a : List (String × String)) (cs : List Node) (lvl : Nat)
    (h : (lvl < opts.minLevel || lvl > opts.maxLevel) = true) :
    anchorHeadingResult opts sl v a cs lvl
      = (.mk v a (anchorRunList opts sl cs).1, (anchorRunList opts sl cs).2) := by
  simp only [anchorHeadingResult]
  rw [h, if_pos rfl]

theorem anchorHeadingResult_in (opts : HeadingAnchorOptions) (sl : Slugger) (v : NV)
    (a : List (String × String)) (cs : List Node) (lvl : Nat)
    (h : (lvl < opts.minLevel || lvl > opts.maxLevel) = false) :
    anchorHeadingResult opts sl v a cs lvl
      = (.mk v
          (if opts.idOnHeading
            then a ++ [("id", (Slugger.slug sl (collectText (.mk v a cs))).1)] else a)
          (match opts.position with
           | .atStart => anchorLinkNode opts (Slugger.slug sl (collectText (.mk v a cs))).1
               :: (anchorRunList opts (Slugger.slug sl (collectText (.mk v a cs))).2 cs).1
           | .atEnd => (anchorRunList opts (Slugger.slug sl (collectText (.mk v a cs))).2 cs).1
               ++ [anchorLinkNode opts (Slugger.slug sl (collectText (.mk v a cs))).1]
           | .noAnchor => (anchorRunList opts (Slugger.slug sl (collectText (.mk v a cs))).2 cs).1),
         (anchorRunList opts (Slugger.slug sl (collectText (.mk v a cs))).2 cs).2) := by
  simp only [anchorHeadingResult]
  rw [h, if_neg Bool.false_ne_true]

theorem value_anchorRun (opts : HeadingAnchorOptions) (sl : Slugger) (c : Node) :
    (anchorRun opts sl c).1.value = c.value := by
  obtain ⟨v, a, cs⟩ := c
  cases hv : headingLevel v with
  | none =>
    rw [anchorRun_other opts sl v a cs hv]
    rfl
  | some lvl =>
    rw [anchorRun_heading opts sl v a cs lvl hv]
    cases hcond : (lvl < opts.minLevel || lvl > opts.maxLevel) with
    | true =>
      rw [anchorHeadingResult_out opts sl v a cs lvl hcond]
      rfl
    | false =>
      rw [anchorHeadingResult_in opts sl v a cs lvl hcond]
      rfl

theorem isAnchorNode_anchorRun (opts : HeadingAnchorOptions) (sl : Slugger) (c : Node) :
    isAnchorNode (anchorRun opts sl c).1 = isAnchorNode c := by
  simp only [isAnchorNode, value_anchorRun]

theorem anchorRunList_any (opts : HeadingAnchorOptions) :
    ∀ (l : List Node) (sl : Slugger),
      ((anchorRunList opts sl l).1.any isAnchorNode) = l.any isAnchorNode := by
  intro l
  induction l with
  | nil => intro sl; rfl
  | cons c cs ih =>
    intro sl
    rw [show (anchorRunList opts sl (c :: cs)).1
        = (anchorRun opts sl c).1 :: (anchorRunList opts (anchorRun opts sl c).2 cs).1 from rfl]
    rw [List.any_cons, List.any_cons, isAnchorNode_anchorRun, ih]

/-- C8 counterexample: with a configuration whose position is None (and
id_on_heading false), an in-range level-1 heading is left entirely
unchanged — no anchor child is inserted although the level lies inside
[min_level, max_level] = [1, 6] — so anchor insertion is not "exactly
when the level is in range". -/
theorem C8_counterexample :
    (anchorRun ⟨1, 6, false, .noAnchor, [], ""⟩ ⟨[]⟩
        (.mk (.root ⟨none, []⟩) [] [.mk (.atxHeading 1) [] [.mk (.textNode "x") [] []]])).1
      = .mk (.root ⟨none, []⟩) [] [.mk (.atxHeading 1) [] [.mk (.textNode "x") [] []]] ∧
    hasAnchorChild (anchorRun ⟨1, 6, false, .noAnchor, [], ""⟩ ⟨[]⟩
        (.mk (.atxHeading 1) [] [.mk (.textNode "x") [] []])).1 = false ∧
    ((1 : Nat) < 1 || (1 : Nat) > 6) = false := by
  refine ⟨rfl, rfl, rfl⟩

/-- C8 (amended): at every ATX or setext heading node, the rule's effect
is gated by the configured range AND the configured anchor position:
inside [min_level, max_level] the slug id goes on the heading exactly
when id_on_heading is set (else on the anchor), and an anchor child is
inserted at the configured position — none at all when the position is
None; outside the range the heading keeps its attributes, gains no
anchor and no id, and no error is raised. -/
theorem C8_heading_anchor_amended (opts : HeadingAnchorOptions) (sl : Slugger)
    (v : NV) (a : List (String × String)) (cs : List Node) (lvl : Nat)
    (hv : headingLevel v = some lvl)
    (hno : cs.any isAnchorNode = false)
    (hid : a.any (fun p => p.1 == "id") = false) :
    ((lvl < opts.minLevel || lvl > opts.maxLevel) = true →
      anchorRun opts sl (.mk v a cs)
        = (.mk v a (anchorRunList opts sl cs).1, (anchorRunList opts sl cs).2) ∧
      hasIdAttr (anchorRun opts sl (.mk v a cs)).1 = false ∧
      hasAnchorChild (anchorRun opts sl (.mk v a cs)).1 = false) ∧
    ((lvl < opts.minLevel || lvl > opts.maxLevel) = false →
      anchorRun opts sl (.mk v a cs)
        = (.mk v
            (if opts.idOnHeading
              then a ++ [("id", (Slugger.slug sl (collectText (.mk v a cs))).1)] else a)
            (match opts.position with
             | .atStart => anchorLinkNode opts (Slugger.slug sl (collectText (.mk v a cs))).1
                 :: (anchorRunList opts (Slugger.slug sl (collectText (.mk v a cs))).2 cs).1
             | .atEnd => (anchorRunList opts (Slugger.slug sl (collectText (.mk v a cs))).2 cs).1
                 ++ [anchorLinkNode opts (Slugger.slug sl (collectText (.mk v a cs))).1]
             | .noAnchor => (anchorRunList opts (Slugger.slug sl (collectText (.mk v a cs))).2 cs).1),
           (anchorRunList opts (Slugger.slug sl (collectText (.mk v a cs))).2 cs).2) ∧
      hasIdAttr (anchorRun opts sl (.mk v a cs)).1 = opts.idOnHeading ∧
      hasAnchorChild (anchorRun opts sl (.mk v a cs)).1
        = (match opts.position with
           | .noAnchor => false
           | _ => true)) := by
  constructor
  · intro h
    have he := (anchorRun_heading opts sl v a cs lvl hv).trans
      (anchorHeadingResult_out opts sl v a cs lvl h)
    refine ⟨he, ?_, ?_⟩
    · rw [he]
      exact hid
    · rw [he]
      show ((anchorRunList opts sl cs).1.any isAnchorNode) = false
      rw [anchorRunList_any]
      exact hno
  · intro h
    have he := (anchorRun_heading opts sl v a cs lvl hv).trans
      (anchorHeadingResult_in opts sl v a cs lvl h)
    refine ⟨he, ?_, ?_⟩
    · rw [he]
      cases hio : opts.idOnHeading with
      | true =>
        rw [if_pos rfl]
        show ((a ++ [("id", (Slugger.slug sl (collectText (.mk v a cs))).1)]).any
          (fun p => p.1 == "id")) = true
        rw [List.any_append]
        simp [hid]
      | false =>
        rw [if_neg Bool.false_ne_true]
        exact hid
    · rw [he]
      cases hpos : opts.position with
      | atStart =>
        show ((anchorLinkNode opts (Slugger.slug sl (collectText (.mk v a cs))).1
          :: (anchorRunList opts (Slugger.slug sl (collectText (.mk v a cs))).2 cs).1).any
            isAnchorNode) = true
        rw [List.any_cons]
        rfl
      | atEnd =>
        show (((anchorRunList opts (Slugger.slug sl (collectText (.mk v a cs))).2 cs).1
          ++ [anchorLinkNode opts (Slugger.slug sl (collectText (.mk v a cs))).1]).any
            isAnchorNode) = true
        rw [List.any_append, anchorRunList_any, hno]
        rfl
      | noAnchor =>
        show (((anchorRunList opts (Slugger.slug sl (collectText (.mk v a cs))).2 cs).1).any
            isAnchorNode) = false
        rw [anchorRunList_any]
        exact hno

/-- Witness for C8 (amended) at a concrete in-range level-2 ATX heading;
all three hypotheses are discharged by rfl. -/
theorem C8_heading_anchor_amended_witness :
    ((2 < c8wopts.minLevel || 2 > c8wopts.maxLevel) = true →
      anchorRun c8wopts ⟨[]⟩ (.mk (.atxHeading 2) [] c8wcs)
        = (.mk (.atxHeading 2) [] (anchorRunList c8wopts ⟨[]⟩ c8wcs).1,
           (anchorRunList c8wopts ⟨[]⟩ c8wcs).2) ∧
      hasIdAttr (anchorRun c8wopts ⟨[]⟩ (.mk (.atxHeading 2) [] c8wcs)).1 = false ∧
      hasAnchorChild (anchorRun c8wopts ⟨[]⟩ (.mk (.atxHeading 2) [] c8wcs)).1 = false) ∧
    ((2 < c8wopts.minLevel || 2 > c8wopts.maxLevel) = false →
      anchorRun c8wopts ⟨[]⟩ (.mk (.atxHeading 2) [] c8wcs)
        = (.mk (.atxHeading 2)
            (if c8wopts.idOnHeading
              then [] ++ [("id", (Slugger.slug ⟨[]⟩ (collectText (.mk (.atxHeading 2) [] c8wcs))).1)]
              else [])
            (match c8wopts.position with
             | .atStart => anchorLinkNode c8wopts
                   (Slugger.slug ⟨[]⟩ (collectText (.mk (.atxHeading 2) [] c8wcs))).1
                 :: (anchorRunList c8wopts
                   (Slugger.slug ⟨[]⟩ (collectText (.mk (.atxHeading 2) [] c8wcs))).2 c8wcs).1
             | .atEnd => (anchorRunList c8wopts
                   (Slugger.slug ⟨[]⟩ (collectText (.mk (.atxHeading 2) [] c8wcs))).2 c8wcs).1
                 ++ [anchorLinkNode c8wopts
                   (Slugger.slug ⟨[]⟩ (collectText (.mk (.atxHeading 2) [] c8wcs))).1]
             | .noAnchor => (anchorRunList c8wopts
                   (Slugger.slug ⟨[]⟩ (collectText (.mk (.atxHeading 2) [] c8wcs))).2 c8wcs).1),
           (anchorRunList c8wopts
             (Slugger.slug ⟨[]⟩ (collectText (.mk (.atxHeading 2) [] c8wcs))).2 c8wcs).2) ∧
      hasIdAttr (anchorRun c8wopts ⟨[]⟩ (.mk (.atxHeading 2) [] c8wcs)).1 = c8wopts.idOnHeading ∧
      hasAnchorChild (anchorRun c8wopts ⟨[]⟩ (.mk (.atxHeading 2) [] c8wcs)).1
        = (match c8wopts.position with
           | .noAnchor => false
           | _ => true)) :=
  C8_heading_anchor_amended c8wopts ⟨[]⟩ (.atxHeading 2) [] c8wcs 2 rfl rfl rfl

theorem listGetSet {α : Type} :
    ∀ (l : List α) (i : Nat) (x : α), i < l.length → (l.set i x).get? i = some x := by
  intro l
  induction l with
  | nil => intro i x h; simp at h
  | cons a as ih =>
    intro i x h
    cases i with
    | zero => rfl
    | succ j =>
      rw [show (a :: as).set (j + 1) x = a :: as.set j x from rfl,
        show (a :: as.set j x).get? (j + 1) = (as.set j x).get? j from rfl]
      exact ih j x (by simp at h; omega)

/-- C10: on every successful run of the footnote-definition block rule,
the block-indent counter is adjusted symmetrically around the nested
tokenize invocation (+4 before, -4 after, net change zero given that
tokenize itself preserves the counter per the block-parser contract),
and the first line's stored indentation offsets and the current-line
index are restored to their pre-rule values before the rule returns. -/
theorem C10_definition_scanner_frame (tokenize : BlockState → BlockState) (s : BlockState)
    (node2 : Node) (nl : Nat) (s2 : BlockState)
    (hblk : ∀ st, (tokenize st).blkIndent = st.blkIndent)
    (hlen : ∀ st, (tokenize st).lineOffsets.length = st.lineOffsets.length)
    (hline : s.line < s.lineOffsets.length)
    (hrun : FootnoteDefinitionScanner.run tokenize s = some ((node2, nl), s2)) :
    s2.blkIndent = s.blkIndent ∧
    s2.line = s.line ∧
    s2.lineOffsets.get? s.line = s.lineOffsets.get? s.line ∧
    s2.lineOffsets.length = s.lineOffsets.length := by
  cases hd : FootnoteDefinitionScanner.isDef s with
  | none =>
    rw [show FootnoteDefinitionScanner.run tokenize s
        = (match FootnoteDefinitionScanner.isDef s with
           | none => none
           | some (label, spaces) =>
             some (fdRestore s (tokenize (fdEnter s label spaces)) s.node)) from rfl,
      hd] at hrun
    exact Option.noConfusion hrun
  | some ls =>
    obtain ⟨label, spaces⟩ := ls
    rw [show FootnoteDefinitionScanner.run tokenize s
        = (match FootnoteDefinitionScanner.isDef s with
           | none => none
           | some (label, spaces) =>
             some (fdRestore s (tokenize (fdEnter s label spaces)) s.node)) from rfl,
      hd] at hrun
    have hs : (fdRestore s (tokenize (fdEnter s label spaces)) s.node).2 = s2 :=
      congrArg Prod.snd (Option.some.inj hrun)
    rw [← hs]
    have hlen4 : (tokenize (fdEnter s label spaces)).lineOffsets.length
        = s.lineOffsets.length := by
      rw [hlen]
      show (s.lineOffsets.set s.line _).length = s.lineOffsets.length
      rw [List.length_set]
    refine ⟨?_, rfl, ?_, ?_⟩
    · show (tokenize (fdEnter s label spaces)).blkIndent - 4 = s.blkIndent
      rw [hblk]
      show s.blkIndent + 4 - 4 = s.blkIndent
      omega
    · show ((tokenize (fdEnter s label spaces)).lineOffsets.set s.line
          ((s.lineOffsets.get? s.line).getD ⟨0, 0⟩)).get? s.line
        = s.lineOffsets.get? s.line
      cases hgo : s.lineOffsets.get? s.line with
      | none =>
        rw [List.get?_eq_none] at hgo
        omega
      | some lo =>
        rw [listGetSet ((tokenize (fdEnter s label spaces)).lineOffsets) s.line
          ((some lo).getD ⟨0, 0⟩) (by rw [hlen4]; exact hline)]
        rfl
    · show ((tokenize (fdEnter s label spaces)).lineOffsets.set s.line
          ((s.lineOffsets.get? s.line).getD ⟨0, 0⟩)).length
        = s.lineOffsets.length
      rw [List.length_set, hlen4]

/-- Witness for C10 with tokenize = id (which trivially satisfies the
block-parser contract): all hypotheses discharged by rfl or evaluation. -/
theorem C10_definition_scanner_frame_witness :
    c10s2.blkIndent = c10s.blkIndent ∧
    c10s2.line = c10s.line ∧
    c10s2.lineOffsets.get? c10s.line = c10s.lineOffsets.get? c10s.line ∧
    c10s2.lineOffsets.length = c10s.lineOffsets.length :=
  C10_definition_scanner_frame id c10s
    (.mk (.footnoteDef (some "a") (some 0) false) [] []) 0 c10s2
    (fun st => rfl) (fun st => rfl) (by decide) rfl

/-- C1 counterexample: with the tie-break trigger exactly as the spec
words it (reject only when BOTH runs can open and close), the engine
does NOT produce the nesting CommonMark's rule-of-3 tie-break dictates
on either test input: the dual middle run pairs with the open-only or
close-only outer runs, yielding nested light emphasis instead of the
dictated trees. -/
theorem C1_counterexample :
    emphSpecProcess (tokenize '*' true "**a*b**")
      = [.wrap '*' 1 [.wrap '*' 1 [.text "a"], .text "b"], .text "*"] ∧
    emphSpecProcess (tokenize '*' true "*a**b*")
      = [.wrap '*' 1 [.text "a"], .wrap '*' 1 [.text "b"]] ∧
    emphSpecProcess (tokenize '*' true "**a*b**") ≠ cmDictatedA ∧
    emphSpecProcess (tokenize '*' true "*a**b*") ≠ cmDictatedB := by
  refine ⟨rfl, rfl, ?_, ?_⟩
  · intro h
    have h2 := congrArg headWeight h
    rw [show headWeight (emphSpecProcess (tokenize '*' true "**a*b**")) = some 1 from rfl,
      show headWeight cmDictatedA = some 2 from rfl] at h2
    simp at h2
  · intro h
    have h2 := congrArg List.length h
    rw [show (emphSpecProcess (tokenize '*' true "*a**b*")).length = 2 from rfl,
      show cmDictatedB.length = 1 from rfl] at h2
    simp at h2

/-- C1 (amended): in the pairing engine with CommonMark's tie-break
trigger (reject when AT LEAST ONE of the runs can both open and close —
not, as the spec words it, only when both can), a closer meeting a
candidate opener of the same marker where both runs can both open and
close is rejected if and only if the sum of the two run lengths is a
multiple of 3 and not both individual lengths are multiples of 3; and
the inputs with stars around a and b produce exactly the nesting
CommonMark's rule-of-3 tie-break dictates. -/
theorem C1_rule_of_3_amended (o c : DelimRun)
    (ho : (o.canOpen && o.canClose) = true) (_hc : (c.canOpen && c.canClose) = true) :
    (tieRejectOneOf o c = true
      ↔ ((o.len + c.len) % 3 = 0 ∧ ¬(o.len % 3 = 0 ∧ c.len % 3 = 0))) ∧
    emphCMProcess (tokenize '*' true "**a*b**") = cmDictatedA ∧
    emphCMProcess (tokenize '*' true "*a**b*") = cmDictatedB := by
  refine ⟨?_, rfl, rfl⟩
  rw [tieRejectOneOf, ho, Bool.true_or, Bool.true_and, ruleOf3]
  simp [Bool.and_eq_true, Nat.beq_eq_true_eq]
  intro _
  constructor
  · intro h h1 h2
    cases h with
    | inl h3 => exact h3 h1
    | inr h3 => exact h3 h2
  · intro h
    by_cases h1 : o.len % 3 = 0
    · exact Or.inr (h h1)
    · exact Or.inl h1

/-- Witness for C1 (amended) at concrete dual runs of lengths 1 and 2
(the middle and outer runs of the test inputs); both hypotheses are
discharged by rfl, and the tie-break predicate evaluates to true there
since 1 + 2 is a multiple of 3 while 1 and 2 are not. -/
theorem C1_rule_of_3_amended_witness :
    (tieRejectOneOf ⟨'*', 1, true, true⟩ ⟨'*', 2, true, true⟩ = true
      ↔ (((⟨'*', 1, true, true⟩ : DelimRun).len + (⟨'*', 2, true, true⟩ : DelimRun).len) % 3 = 0
          ∧ ¬((⟨'*', 1, true, true⟩ : DelimRun).len % 3 = 0
              ∧ (⟨'*', 2, true, true⟩ : DelimRun).len % 3 = 0))) ∧
    emphCMProcess (tokenize '*' true "**a*b**") = cmDictatedA ∧
    emphCMProcess (tokenize '*' true "*a**b*") = cmDictatedB :=
  C1_rule_of_3_amended ⟨'*', 1, true, true⟩ ⟨'*', 2, true, true⟩ rfl rfl
